import Mathlib

/-!
The cream key-value store: the hash map of `src/src/hashmap.c`.

A shallow embedding of the fixed-capacity, linearly probed hash map.

Modelling conventions.

* A buffer pointer is `Option (List Nat)`: `none` is the NULL pointer and
  `some bs` points to a buffer holding the bytes `bs`. The length field
  travels separately, as in the C structs.
* `uint32_t` fields are natural numbers; `size++` and `size--` wrap modulo
  `UINT32_MODULUS`.
* The slot array is a list. A C array read or write with an index outside
  the array has no defined behaviour; the embedding makes every such access
  explicit (`nodes[i]?`) and reports `Outcome.out_of_bounds`.
* `write_lock` is a flag: `pthread_mutex_lock` on a held lock never returns
  (`Outcome.blocks`), `pthread_mutex_unlock` clears the flag.
* The probe counter `int i` of `put` is its `uint32_t` value, and the loop
  bound `capacity + nodeIndex` wraps modulo `UINT32_MODULUS`. The probe
  counter of `get` and `delete` is a natural number (exact while
  `capacity + nodeIndex` fits the C `int`).
* The destroy hook releases caller memory and does not touch the store.
-/

namespace Hashmap

/-- Modulus of the C type `uint32_t`. -/
def UINT32_MODULUS : Nat := 4294967296

/-- Largest value of the C type `int` (limits.h). -/
def INT_MAX : Nat := 2147483647

/-- The C struct `map_key_t`: a buffer pointer and a length. -/
structure map_key_t where
  key_base : Option (List Nat)
  key_len : Nat
  deriving DecidableEq

/-- The C struct `map_val_t`: a buffer pointer and a length. -/
structure map_val_t where
  val_base : Option (List Nat)
  val_len : Nat
  deriving DecidableEq

/-- The C struct `map_node_t`: one slot of the table. -/
structure map_node_t where
  key : map_key_t
  val : map_val_t
  tombstone : Bool
  deriving DecidableEq

/-- Macro `MAP_KEY` (hashmap.c line 7). -/
def MAP_KEY (base : Option (List Nat)) (len : Nat) : map_key_t := ⟨base, len⟩

/-- Macro `MAP_VAL` (hashmap.c line 8). -/
def MAP_VAL (base : Option (List Nat)) (len : Nat) : map_val_t := ⟨base, len⟩

/-- Macro `MAP_NODE` (hashmap.c line 9). -/
def MAP_NODE (key_arg : map_key_t) (val_arg : map_val_t) (tombstone_arg : Bool) : map_node_t :=
  ⟨key_arg, val_arg, tombstone_arg⟩

/-- The C struct `hashmap_t`, with the writer mutex as a held / not held flag. -/
structure hashmap_t where
  capacity : Nat
  size : Nat
  nodes : List map_node_t
  hash_function : map_key_t → Nat
  destroy_function : map_key_t → map_val_t → Unit
  write_lock : Bool
  invalid : Bool

/-- What a call does: it returns a result, or it reads or writes the slot
array outside its bounds, or it waits forever for the writer lock. -/
inductive Outcome (α : Type) where
  | returns (a : α)
  | out_of_bounds
  | blocks
  deriving DecidableEq

/-- The bytes behind a buffer pointer. NULL stands for a buffer without
bytes, and bytes beyond the end of a buffer are not modelled. -/
def buffer_bytes (p : Option (List Nat)) : List Nat := p.getD []

/-- Library function `memcmp(a, b, n)`: zero exactly when the first `n`
bytes agree. Only the test against zero is used by the callers, so the sign
is not modelled. -/
def memcmp (a b : Option (List Nat)) (n : Nat) : Int :=
  if (buffer_bytes a).take n = (buffer_bytes b).take n then 0 else 1

/-- The emptiness test of a slot, hashmap.c lines 114-115 (and 130-131,
247-248): any of the four fields is NULL or zero. The disjunct
`myMapNode == NULL` is dropped: `myMapNode` is the address of a slot. -/
def node_is_empty (n : map_node_t) : Bool :=
  n.key.key_base.isNone || n.key.key_len == 0 || n.val.val_base.isNone || n.val.val_len == 0

/-- The key comparison of hashmap.c lines 127-128, 188-189 and 238-239:
equal lengths, then `memcmp(...) == 0`. The last disjunct
`key.key_base == NULL && myMapNode == NULL` is dropped: `myMapNode` is the
address of a slot and never NULL. -/
def key_matches (key : map_key_t) (n : map_node_t) : Bool :=
  key.key_len == n.key.key_len && memcmp key.key_base n.key.key_base key.key_len == 0

/-- Modelled from the spec: `get_index` (declared in utils.h, which is not
part of the sources). The starting probe index is `h(K) mod capacity`. -/
def get_index (self : hashmap_t) (key : map_key_t) : Nat :=
  self.hash_function key % self.capacity

/-- Function `create_map`, hashmap.c lines 24-57. NULL function pointers are `none`.
Allocation and mutex initialisation are taken to succeed. -/
def create_map (capacity : Nat) (hash_function : Option (map_key_t → Nat))
    (destroy_function : Option (map_key_t → map_val_t → Unit)) : Option hashmap_t :=
  match hash_function, destroy_function with
  | some h, some d =>
    if capacity = 0 then none
    else some
      { capacity := capacity
        size := 0
        nodes := List.replicate capacity (MAP_NODE (MAP_KEY none 0) (MAP_VAL none 0) false)
        hash_function := h
        destroy_function := d
        write_lock := false
        invalid := false }
  | _, _ => none

/-- The five stores into the slot at `idx` made by each writing branch of
`put` (lines 93-97, 117-121, 134-138). -/
def store_node (self : hashmap_t) (idx : Nat) (key : map_key_t) (val : map_val_t) : List map_node_t :=
  self.nodes.set idx (MAP_NODE key val false)

/-- The placement shared by the two writing branches of the probe loop of
`put` (lines 117-123 and 134-140): the slot stores, `size++`, unlock. The
call of the destroy hook at line 133 does not touch the store. -/
def place_entry (self : hashmap_t) (idx : Nat) (key : map_key_t) (val : map_val_t) : hashmap_t :=
  { self with
    nodes := store_node self idx key val
    size := (self.size + 1) % UINT32_MODULUS
    write_lock := false }

/-- The probe loop of `put`, hashmap.c lines 111-145, entered with the
writer lock held. `i` is the loop counter `int i` converted to `uint32_t`,
as the test `i < self->capacity + nodeIndex` and the index
`i % self->capacity` convert it, and the last argument is the number of
iterations left, the `uint32_t` value of `self->capacity + nodeIndex` minus
`i`. The counter stays below that bound, so it does not wrap as a
`uint32_t`; an `i++` at `INT_MAX` is taken to continue with the next
`uint32_t` value. The result is the returned boolean and the store; `none`
is a slot access out of bounds. -/
def put_loop (self : hashmap_t) (key : map_key_t) (val : map_val_t) :
    Nat → Nat → Option (Bool × hashmap_t)
  | _, 0 => some (false, self)
  | i, n + 1 =>
    match self.nodes[i % self.capacity]? with
    | none => none
    | some myMapNode =>
      if node_is_empty myMapNode then
        some (true, place_entry self (i % self.capacity) key val)
      else if myMapNode.tombstone == true || key_matches key myMapNode then
        if !(node_is_empty myMapNode) then
          some (true, place_entry self (i % self.capacity) key val)
        else put_loop self key val (i + 1) n
      else put_loop self key val (i + 1) n

/-- Function `put`, hashmap.c lines 72-150. In the forced branch the home
index is stored in `int i` (line 90): an index above `INT_MAX` is a negative
`i`, and the write to `nodes[i]` is out of bounds. The bound of the probe
loop, `self->capacity + nodeIndex` (line 111), is computed in `uint32_t` and
wraps modulo `UINT32_MODULUS`; when it wraps it lies below the counter and
the loop body is not entered. -/
def put (self : hashmap_t) (key : map_key_t) (val : map_val_t) (force : Bool) :
    Outcome (Bool × hashmap_t) :=
  if key.key_base.isNone || key.key_len == 0 || val.val_base.isNone || val.val_len == 0
      || self.invalid then
    .returns (false, self)
  else if self.write_lock then .blocks
  else
    let locked := { self with write_lock := true }
    if self.size ≥ self.capacity && force == false then
      .returns (false, locked)
    else if self.size ≥ self.capacity && force == true then
      let i := get_index self key
      if i ≤ INT_MAX ∧ i < self.nodes.length then
        .returns (true, { self with nodes := store_node self i key val, write_lock := false })
      else .out_of_bounds
    else
      let nodeIndex := get_index self key
      let bound := (self.capacity + nodeIndex) % UINT32_MODULUS
      match put_loop locked key val nodeIndex (bound - nodeIndex) with
      | none => .out_of_bounds
      | some r => .returns r

/-- The probe loop shared verbatim by `get` (lines 182-197) and `delete`
(lines 236-245). `i` is the loop counter and the last argument the number of
iterations left. The tombstone flag is read from `nodes[i]`, the key from
`nodes[i % capacity]`. The result is `some (some j)` when the loop breaks
with `myMapNode = &nodes[j]`, `some none` when it ends with `myMapNode`
NULL, and `none` when a slot access is out of bounds. -/
def probe_loop (self : hashmap_t) (key : map_key_t) : Nat → Nat → Option (Option Nat)
  | _, 0 => some none
  | i, n + 1 =>
    match self.nodes[i]? with
    | none => none
    | some node_i =>
      if node_i.tombstone == false then
        match self.nodes[i % self.capacity]? with
        | none => none
        | some myMapNode =>
          if key_matches key myMapNode then some (some (i % self.capacity))
          else probe_loop self key (i + 1) n
      else probe_loop self key (i + 1) n

/-- Function `get`, hashmap.c lines 164-212. In a sequential run `num_readers` is 0
on entry, so the call is the first and the last reader: it takes the writer
lock and releases it again, and the store is left as it was. -/
def get (self : hashmap_t) (key : map_key_t) : Outcome map_val_t :=
  if key.key_len == 0 || self.invalid then .returns (MAP_VAL none 0)
  else if self.write_lock then .blocks
  else
    match probe_loop self key (get_index self key) self.capacity with
    | none => .out_of_bounds
    | some none => .returns (MAP_VAL none 0)
    | some (some j) =>
      match self.nodes[j]? with
      | none => .out_of_bounds
      | some myMapNode => .returns myMapNode.val

/-- Function `delete`, hashmap.c lines 225-261. The result is the returned node and
the store. -/
def delete (self : hashmap_t) (key : map_key_t) : Outcome (map_node_t × hashmap_t) :=
  if key.key_base.isNone || key.key_len == 0 || self.invalid then
    .returns (MAP_NODE (MAP_KEY none 0) (MAP_VAL none 0) false, self)
  else if self.write_lock then .blocks
  else
    match probe_loop self key (get_index self key) self.capacity with
    | none => .out_of_bounds
    | some none => .returns (MAP_NODE (MAP_KEY none 0) (MAP_VAL none 0) false, self)
    | some (some j) =>
      match self.nodes[j]? with
      | none => .out_of_bounds
      | some myMapNode =>
        if !(node_is_empty myMapNode) then
          let dead := { myMapNode with tombstone := true }
          .returns (dead, { self with
            nodes := self.nodes.set j dead
            size := (self.size + UINT32_MODULUS - 1) % UINT32_MODULUS })
        else .returns (myMapNode, self)

/-- The probe loop of `get` and `delete` (lines 182-197 and 236-245) on a
build that does not check array bounds: the read of `nodes[i].tombstone`
with `i` outside the slot array yields the byte that lies there, `beyond i`
as a boolean. Everything else is as in `probe_loop`. -/
def probe_loop_unchecked (beyond : Nat → Bool) (self : hashmap_t) (key : map_key_t) :
    Nat → Nat → Option (Option Nat)
  | _, 0 => some none
  | i, n + 1 =>
    let tombstone_i :=
      match self.nodes[i]? with
      | none => beyond i
      | some node_i => node_i.tombstone
    if tombstone_i == false then
      match self.nodes[i % self.capacity]? with
      | none => none
      | some myMapNode =>
        if key_matches key myMapNode then some (some (i % self.capacity))
        else probe_loop_unchecked beyond self key (i + 1) n
    else probe_loop_unchecked beyond self key (i + 1) n

/-- Function `delete`, hashmap.c lines 225-261, with the probe loop
`probe_loop_unchecked`: what the call does when the read outside the slot
array goes through and yields `beyond i`. -/
def delete_unchecked (beyond : Nat → Bool) (self : hashmap_t) (key : map_key_t) :
    Outcome (map_node_t × hashmap_t) :=
  if key.key_base.isNone || key.key_len == 0 || self.invalid then
    .returns (MAP_NODE (MAP_KEY none 0) (MAP_VAL none 0) false, self)
  else if self.write_lock then .blocks
  else
    match probe_loop_unchecked beyond self key (get_index self key) self.capacity with
    | none => .out_of_bounds
    | some none => .returns (MAP_NODE (MAP_KEY none 0) (MAP_VAL none 0) false, self)
    | some (some j) =>
      match self.nodes[j]? with
      | none => .out_of_bounds
      | some myMapNode =>
        if !(node_is_empty myMapNode) then
          let dead := { myMapNode with tombstone := true }
          .returns (dead, { self with
            nodes := self.nodes.set j dead
            size := (self.size + UINT32_MODULUS - 1) % UINT32_MODULUS })
        else .returns (myMapNode, self)

/-- One iteration body of the loops of `clear_map` (lines 282-286) and
`invalidate_map` (lines 318-322): key and value fields are zeroed, the
tombstone flag is left alone. -/
def clear_node (n : map_node_t) : map_node_t :=
  { n with key := MAP_KEY none 0, val := MAP_VAL none 0 }

/-- The loop of `clear_map`, hashmap.c lines 281-288: `i` is the counter
and the last argument the number of iterations left, `capacity - i`. -/
def clear_loop : List map_node_t → Nat → Nat → Option (List map_node_t)
  | nodes, _, 0 => some nodes
  | nodes, i, n + 1 =>
    match nodes[i]? with
    | none => none
    | some node_i => clear_loop (nodes.set i (clear_node node_i)) (i + 1) n

/-- Function `clear_map`, hashmap.c lines 272-295. -/
def clear_map (self : hashmap_t) : Outcome (Bool × hashmap_t) :=
  if self.invalid then .returns (false, self)
  else if self.write_lock then .blocks
  else
    match clear_loop self.nodes 0 self.capacity with
    | none => .out_of_bounds
    | some cleared => .returns (true, { self with nodes := cleared, size := 0 })

/-- The loop of `invalidate_map`, hashmap.c lines 315-325: `i` counts up
from 0 while `counter`, the last argument, counts down from `capacity`. -/
def invalidate_loop : List map_node_t → Nat → Nat → Option (List map_node_t)
  | nodes, _, 0 => some nodes
  | nodes, i, counter + 1 =>
    match nodes[i]? with
    | none => none
    | some node_i => invalidate_loop (nodes.set i (clear_node node_i)) (i + 1) counter

/-- Function `invalidate_map`, hashmap.c lines 307-333. After `free(self->nodes)`
the slot array is gone: the store is left without slots, so that any later
access to a slot is out of bounds. -/
def invalidate_map (self : hashmap_t) : Outcome (Bool × hashmap_t) :=
  if self.invalid then .returns (false, self)
  else if self.write_lock then .blocks
  else
    match invalidate_loop self.nodes 0 self.capacity with
    | none => .out_of_bounds
    | some _ => .returns (true, { self with nodes := [], size := 0, invalid := true })

/-! Notions used to state the properties of the store. -/

/-- Keys are equal when they have the same length and the same bytes. -/
def keys_equal (a b : map_key_t) : Prop :=
  a.key_len = b.key_len ∧
    (buffer_bytes a.key_base).take a.key_len = (buffer_bytes b.key_base).take a.key_len

instance keys_equal_decidable (a b : map_key_t) : Decidable (keys_equal a b) := by
  unfold keys_equal
  exact inferInstance

/-- A key that `put` and `delete` accept: the pointer is not NULL and the length is not 0. -/
def key_nonempty (k : map_key_t) : Prop := k.key_base ≠ none ∧ k.key_len ≠ 0

/-- A value that `put` accepts: the pointer is not NULL and the length is not 0. -/
def val_nonempty (v : map_val_t) : Prop := v.val_base ≠ none ∧ v.val_len ≠ 0

instance key_nonempty_decidable (k : map_key_t) : Decidable (key_nonempty k) := by
  unfold key_nonempty
  exact inferInstance

instance val_nonempty_decidable (v : map_val_t) : Decidable (val_nonempty v) := by
  unfold val_nonempty
  exact inferInstance

/-- A slot is live when it is not empty and not tombstoned. -/
def node_is_live (n : map_node_t) : Bool := !(node_is_empty n) && !n.tombstone

/-- Number of live slots. -/
def live_count (m : hashmap_t) : Nat := m.nodes.countP node_is_live

/-- No two distinct slots are both live with equal keys. -/
def live_keys_unique (m : hashmap_t) : Prop :=
  ∀ (j1 j2 : Nat) (n1 n2 : map_node_t), j1 ≠ j2 → m.nodes[j1]? = some n1 → m.nodes[j2]? = some n2 →
    node_is_live n1 = true → node_is_live n2 = true → ¬ keys_equal n1.key n2.key

/-- The store states reachable from `create_map` by calls of `put`, `delete`
and `clear_map` that return. The capacity is a `uint32_t`. Calls of `get`
leave the store as it is and add no state. -/
inductive Reachable : hashmap_t → Prop where
  | create (capacity : Nat) (h : map_key_t → Nat) (d : map_key_t → map_val_t → Unit)
      (m : hashmap_t) :
      capacity < UINT32_MODULUS → create_map capacity (some h) (some d) = some m → Reachable m
  | put (m : hashmap_t) (key : map_key_t) (val : map_val_t) (force b : Bool) (m' : hashmap_t) :
      Reachable m → put m key val force = .returns (b, m') → Reachable m'
  | delete (m : hashmap_t) (key : map_key_t) (n : map_node_t) (m' : hashmap_t) :
      Reachable m → delete m key = .returns (n, m') → Reachable m'
  | clear_map (m : hashmap_t) (b : Bool) (m' : hashmap_t) :
      Reachable m → clear_map m = .returns (b, m') → Reachable m'

/-- The hash function depends only on the bytes of the key. -/
def hash_respects_keys (h : map_key_t → Nat) : Prop :=
  ∀ a b, keys_equal a b → h a = h b

/-- The store states reachable from `create_map`, with a hash function of
the key bytes, by calls of `clear_map` and of `put` that do not take the
forced overwrite of a full store (lines 88-102); no `delete`. -/
inductive ReachableUnforced : hashmap_t → Prop where
  | create (capacity : Nat) (h : map_key_t → Nat) (d : map_key_t → map_val_t → Unit)
      (m : hashmap_t) :
      capacity < UINT32_MODULUS → hash_respects_keys h →
      create_map capacity (some h) (some d) = some m → ReachableUnforced m
  | put (m : hashmap_t) (key : map_key_t) (val : map_val_t) (force b : Bool) (m' : hashmap_t) :
      ReachableUnforced m → (force = false ∨ m.size < m.capacity) →
      put m key val force = .returns (b, m') → ReachableUnforced m'
  | clear_map (m : hashmap_t) (b : Bool) (m' : hashmap_t) :
      ReachableUnforced m → clear_map m = .returns (b, m') → ReachableUnforced m'

/-- A client that calls `put` with `force = false` for each pair in turn:
the returned booleans in call order, and the final store. -/
def put_seq (m : hashmap_t) : List (map_key_t × map_val_t) → Outcome (List Bool × hashmap_t)
  | [] => .returns ([], m)
  | kv :: rest =>
    match put m kv.1 kv.2 false with
    | .returns (b, m') =>
      match put_seq m' rest with
      | .returns (bs, m'') => .returns (b :: bs, m'')
      | .out_of_bounds => .out_of_bounds
      | .blocks => .blocks
    | .out_of_bounds => .out_of_bounds
    | .blocks => .blocks

/-! Invariants and auxiliary notions of the proofs. -/

/-- The test that makes the probe loop of `put` place the entry in a slot:
the slot is empty, or it is tombstoned, or it holds an equal key. -/
def slot_accepts (key : map_key_t) (n : map_node_t) : Bool :=
  node_is_empty n || n.tombstone || key_matches key n

/-- The fields that no operation below changes. -/
def same_frame (m m' : hashmap_t) : Prop :=
  m'.capacity = m.capacity ∧ m'.hash_function = m.hash_function ∧ m'.invalid = m.invalid

/-- The slot array has `capacity` entries, and the capacity is a positive `uint32_t`. -/
def well_formed (m : hashmap_t) : Prop :=
  m.nodes.length = m.capacity ∧ 0 < m.capacity ∧ m.capacity < UINT32_MODULUS

/-- The invariant behind the bounds on the size counter. -/
def size_invariant (m : hashmap_t) : Prop :=
  well_formed m ∧ live_count m ≤ m.size ∧ m.size ≤ m.capacity

/-- The invariant of a store that is being filled with the keys `keys`: the
size counts the slots that are not empty, no slot is tombstoned, every
stored key is one of `keys`, and the store is valid and unlocked. -/
def fill_invariant (m : hashmap_t) (keys : List map_key_t) : Prop :=
  well_formed m ∧ m.invalid = false ∧ m.write_lock = false ∧
    m.size = m.nodes.countP (fun n => !(node_is_empty n)) ∧
    ∀ nd ∈ m.nodes, node_is_empty nd = false → nd.tombstone = false ∧ nd.key ∈ keys

/-- The state of the slots of a store that has seen no `delete` and no
forced overwrite: no slot is tombstoned; every stored key is reached from
its hash index through slots that are not empty; no two slots that are not
empty hold equal keys. -/
def slots_ok (h : map_key_t → Nat) (cap : Nat) (nodes : List map_node_t) : Prop :=
  (∀ nd ∈ nodes, nd.tombstone = false) ∧
  (∀ (j : Nat) (nd : map_node_t), nodes[j]? = some nd → node_is_empty nd = false →
    ∀ t : Nat, t < cap → (h nd.key % cap + t) % cap = j →
      ∀ t' : Nat, t' < t →
        ∃ nd', nodes[(h nd.key % cap + t') % cap]? = some nd' ∧ node_is_empty nd' = false) ∧
  (∀ (j1 j2 : Nat) (n1 n2 : map_node_t), j1 ≠ j2 → nodes[j1]? = some n1 →
    nodes[j2]? = some n2 → node_is_empty n1 = false → node_is_empty n2 = false →
    ¬ keys_equal n1.key n2.key)

/-- The invariant of the stores reachable without `delete` and without
forced overwrite. -/
def unforced_invariant (m : hashmap_t) : Prop :=
  well_formed m ∧ hash_respects_keys m.hash_function ∧
    slots_ok m.hash_function m.capacity m.nodes

/-! Concrete keys, values, hooks and stores for the worked cases. -/

/-- The one-byte key "A". -/
def key_a : map_key_t := MAP_KEY (some [65]) 1

/-- The one-byte key "B". -/
def key_b : map_key_t := MAP_KEY (some [66]) 1

/-- The key "A" held in a two-byte buffer of which one byte is the key. -/
def key_a_wide : map_key_t := MAP_KEY (some [65, 0]) 1

/-- A one-byte value. -/
def val_1 : map_val_t := MAP_VAL (some [1]) 1

/-- Another one-byte value. -/
def val_2 : map_val_t := MAP_VAL (some [2]) 1

/-- A hash function that sends every key to `c`. -/
def hash_const (c : Nat) : map_key_t → Nat := fun _ => c

/-- A hash function that reads the whole buffer behind the key pointer, not
only the first `key_len` bytes. -/
def hash_whole_buffer : map_key_t → Nat := fun k => (buffer_bytes k.key_base).length

/-- A destroy hook. -/
def destroy_hook : map_key_t → map_val_t → Unit := fun _ _ => ()

/-- The store that `create_map` returns for capacity 2 and a hash that
sends every key to `c`. -/
def store_fresh (c : Nat) : hashmap_t :=
  { capacity := 2
    size := 0
    nodes := [MAP_NODE (MAP_KEY none 0) (MAP_VAL none 0) false,
      MAP_NODE (MAP_KEY none 0) (MAP_VAL none 0) false]
    hash_function := hash_const c
    destroy_function := destroy_hook
    write_lock := false
    invalid := false }

/-- The store `store_fresh 0` after `put` of key A with value 1. -/
def store_one_key : hashmap_t :=
  { store_fresh 0 with
    size := 1
    nodes := [MAP_NODE key_a val_1 false, MAP_NODE (MAP_KEY none 0) (MAP_VAL none 0) false] }

/-- The store `store_one_key` after `put` of key B with value 2: both
slots are live and the store is full. -/
def store_two_keys : hashmap_t :=
  { store_fresh 0 with
    size := 2
    nodes := [MAP_NODE key_a val_1 false, MAP_NODE key_b val_2 false] }

/-- The store `store_two_keys` with the writer lock held. -/
def store_two_keys_locked : hashmap_t := { store_two_keys with write_lock := true }

/-- The store of capacity 2 in which key B is live in both slots. -/
def store_duplicate_key : hashmap_t :=
  { store_fresh 0 with
    size := 2
    nodes := [MAP_NODE key_b val_1 false, MAP_NODE key_b val_2 false] }

/-- The store `store_two_keys` after `invalidate_map`. -/
def store_invalidated : hashmap_t :=
  { store_fresh 0 with nodes := [], invalid := true }

/-- The one-byte key "C". -/
def key_c : map_key_t := MAP_KEY (some [67]) 1

/-- A store of capacity 2 whose two slots are live while its size counter
reads 0; no sequence of calls produces it. -/
def store_miscounted : hashmap_t := { store_two_keys with size := 0 }


/-- The probe chain of the live entries: every live slot lies at an offset
`j < capacity` from the hash index of its key, and no slot at a smaller
offset is empty. -/
def chained (m : hashmap_t) : Prop :=
  ∀ (i : Nat) (nd : map_node_t), m.nodes[i]? = some nd → node_is_live nd = true →
    ∃ j, j < m.capacity ∧ (get_index m nd.key + j) % m.capacity = i ∧
      ∀ j', j' < j →
        ∃ nd', m.nodes[(get_index m nd.key + j') % m.capacity]? = some nd' ∧
          node_is_empty nd' = false

/-- The shape of the slots: an empty slot has key length 0. -/
def slots_shaped (m : hashmap_t) : Prop :=
  ∀ nd ∈ m.nodes, node_is_empty nd = true → nd.key.key_len = 0

/-- Modelled from the spec: the probe loop of a lookup that ends at the first
empty slot and passes over tombstones. `i` is the loop counter and the last
argument the number of iterations left; every slot is read at
`i % capacity`. The result is as for `probe_loop`. -/
def lookup_until_empty_loop (self : hashmap_t) (key : map_key_t) :
    Nat → Nat → Option (Option Nat)
  | _, 0 => some none
  | i, n + 1 =>
    match self.nodes[i % self.capacity]? with
    | none => none
    | some myMapNode =>
      if node_is_empty myMapNode then some none
      else if myMapNode.tombstone == false && key_matches key myMapNode then
        some (some (i % self.capacity))
      else lookup_until_empty_loop self key (i + 1) n

/-- Modelled from the spec: the lookup that ends at the first empty slot,
with the argument tests and the locking of `get`. -/
def lookup_until_empty (self : hashmap_t) (key : map_key_t) : Outcome map_val_t :=
  if key.key_len == 0 || self.invalid then .returns (MAP_VAL none 0)
  else if self.write_lock then .blocks
  else
    match lookup_until_empty_loop self key (get_index self key) self.capacity with
    | none => .out_of_bounds
    | some none => .returns (MAP_VAL none 0)
    | some (some j) =>
      match self.nodes[j]? with
      | none => .out_of_bounds
      | some myMapNode => .returns myMapNode.val

/-- The store `store_fresh 1` after `put` of key A, which lands in slot 1,
and of key B, which lands in slot 0 after the probe wraps. -/
def store_wrapped : hashmap_t :=
  { store_fresh 1 with
    size := 2
    nodes := [MAP_NODE key_b val_2 false, MAP_NODE key_a val_1 false] }

end Hashmap

/-!
The work queue of `src/src/queue.c`.

The queue is a singly linked list of heap nodes. Node storage is a list
indexed by node address; an entry is `none` once the node has been freed.
A NULL pointer is `none`. The counting semaphore `items` is its value;
`sem_wait` at value 0 never returns in a sequential run. The mutex `lock` is
a held / not held flag. The calls of the destroy hook are recorded in
`destroyed`. Allocation is taken to succeed.
-/

namespace Queue

/-- A `void *` handed to the destroy hook: the address of a client item or
the address of a queue node. -/
inductive pointer where
  | item (addr : Nat)
  | node (addr : Nat)
  deriving DecidableEq

/-- The C struct `queue_node_t` (declared in queue.h, used at queue.c lines
79-80): the item pointer and the link to the next node. -/
structure queue_node_t where
  item : Option Nat
  next : Option Nat
  deriving DecidableEq

/-- The C struct `queue_t` (declared in queue.h) together with the node
storage it points into and the record of destroy hook calls. -/
structure queue_t where
  front : Option Nat
  rear : Option Nat
  items : Nat
  lock : Bool
  invalid : Bool
  heap : List (Option queue_node_t)
  destroyed : List pointer
  deriving DecidableEq

/-- What a call does: it returns, or it dereferences NULL or a freed node,
or it never returns (it waits on the semaphore or the mutex, or its loop
does not end). -/
inductive Result (α : Type) where
  | returns (a : α)
  | bad_pointer
  | blocks
  deriving DecidableEq

/-- Function `create_queue`, queue.c lines 13-30. -/
def create_queue : queue_t :=
  { front := none
    rear := none
    items := 0
    lock := false
    invalid := false
    heap := []
    destroyed := [] }

/-- Function `enqueue`, queue.c lines 71-92. The node returned by `calloc`
is placed at the end of the node storage. -/
def enqueue (self : queue_t) (item : Option Nat) : Result (Bool × queue_t) :=
  if item.isNone then .returns (false, self)
  else if self.lock then .blocks
  else
    let qnode := self.heap.length
    let heap1 := self.heap ++ [some { item := item, next := none }]
    if self.front.isNone then
      .returns (true, { self with
        front := some qnode, rear := some qnode, heap := heap1, items := self.items + 1 })
    else
      match self.rear with
      | none => .bad_pointer
      | some r =>
        match heap1[r]? with
        | some (some rear_node) =>
          .returns (true, { self with
            rear := some qnode
            heap := heap1.set r (some { rear_node with next := some qnode })
            items := self.items + 1 })
        | _ => .bad_pointer

/-- Function `dequeue`, queue.c lines 104-122. The result is the returned
item pointer and the queue. -/
def dequeue (self : queue_t) : Result (Option Nat × queue_t) :=
  if self.invalid then .returns (none, self)
  else if self.items = 0 then .blocks
  else if self.lock then .blocks
  else
    match self.front with
    | none => .bad_pointer
    | some frontNode =>
      match self.heap[frontNode]? with
      | some (some front_node) =>
        .returns (front_node.item, { self with
          front := front_node.next
          rear := if front_node.next.isNone then none else self.rear
          items := self.items - 1
          heap := self.heap.set frontNode none })
      | _ => .bad_pointer

/-- The first two statements of the loop body of `invalidate_queue`, queue.c
lines 51-52: the destroy hook is called on `currentNode`, then
`currentNode` is freed. -/
def invalidate_visit (self : queue_t) (currentNode : Nat) : queue_t :=
  { self with
    destroyed := self.destroyed ++ [pointer.node currentNode]
    heap := self.heap.set currentNode none }

/-- The loop of `invalidate_queue`, queue.c lines 50-54. The last argument
bounds the number of iterations; a walk that outlasts it does not end. After
`free(currentNode)` the link is read from the freed node (line 53). -/
def invalidate_loop (self : queue_t) : Option Nat → Nat → Result queue_t
  | none, _ => .returns self
  | some _, 0 => .blocks
  | some currentNode, fuel + 1 =>
    match self.heap[currentNode]? with
    | some (some _) =>
      let visited := invalidate_visit self currentNode
      match visited.heap[currentNode]? with
      | some (some freed_node) => invalidate_loop visited freed_node.next fuel
      | _ => .bad_pointer
    | _ => .bad_pointer

/-- Function `invalidate_queue`, queue.c lines 43-60. A NULL hook is `none`. -/
def invalidate_queue (self : queue_t) (destroy_function : Option (pointer → Unit)) :
    Result (Bool × queue_t) :=
  if destroy_function.isNone then .returns (false, self)
  else if self.lock then .blocks
  else
    match invalidate_loop self self.front (self.heap.length + 1) with
    | .returns walked =>
      .returns (true, { walked with invalid := true, front := none, rear := none })
    | .bad_pointer => .bad_pointer
    | .blocks => .blocks

/-! Notions used to state the properties of the queue. -/

/-- The nodes linked from `p`: their addresses and items, in order, the
last link being NULL. -/
def chain (heap : List (Option queue_node_t)) : Option Nat → List (Nat × Nat) → Prop
  | p, [] => p = none
  | p, (a, x) :: cells =>
    p = some a ∧ ∃ nxt, heap[a]? = some (some { item := some x, next := nxt }) ∧
      chain heap nxt cells

/-- The valid, unlocked queue holds exactly the items `xs`, front first:
they are linked from `front`, `rear` is the last node, and the semaphore
counts them. -/
def represents (q : queue_t) (xs : List Nat) : Prop :=
  q.lock = false ∧ q.invalid = false ∧ q.items = xs.length ∧
    ∃ cells : List (Nat × Nat), cells.map Prod.snd = xs ∧ chain q.heap q.front cells ∧
      q.rear = (cells.map Prod.fst).getLast? ∧ (cells.map Prod.fst).Nodup

/-- A call made by a client of the queue. -/
inductive queue_op where
  | enq (item : Nat)
  | deq
  deriving DecidableEq

/-- A client that makes the calls in turn, `enqueue` with a non-NULL item
pointer: the pointers returned by the calls of `dequeue`, in call order,
and the final queue. -/
def run_ops (q : queue_t) : List queue_op → Result (List (Option Nat) × queue_t)
  | [] => .returns ([], q)
  | queue_op.enq x :: rest =>
    match enqueue q (some x) with
    | .returns (_, q') => run_ops q' rest
    | .bad_pointer => .bad_pointer
    | .blocks => .blocks
  | queue_op.deq :: rest =>
    match dequeue q with
    | .returns (r, q') =>
      match run_ops q' rest with
      | .returns (rs, q'') => .returns (r :: rs, q'')
      | .bad_pointer => .bad_pointer
      | .blocks => .blocks
    | .bad_pointer => .bad_pointer
    | .blocks => .blocks

/-- The items passed to `enqueue`, in call order. -/
def enqueued : List queue_op → List Nat
  | [] => []
  | queue_op.enq x :: rest => x :: enqueued rest
  | queue_op.deq :: rest => enqueued rest

/-- The number of calls of `dequeue`. -/
def dequeue_count : List queue_op → Nat
  | [] => 0
  | queue_op.enq _ :: rest => dequeue_count rest
  | queue_op.deq :: rest => dequeue_count rest + 1

/-- Every `dequeue` is preceded by more calls of `enqueue` than of
`dequeue`, in a run that starts with `n` items in the queue. -/
def dequeues_covered (n : Nat) (ops : List queue_op) : Prop :=
  ∀ k : Nat, ops[k]? = some queue_op.deq →
    dequeue_count (ops.take k) < n + (enqueued (ops.take k)).length

/-- The list model of the queue in the words of the spec: `enqueue` appends
at the rear, `dequeue` removes from the front. The result is the dequeued
items and the final content; `none` when a `dequeue` meets an empty list. -/
def list_model (xs : List Nat) : List queue_op → Option (List Nat × List Nat)
  | [] => some ([], xs)
  | queue_op.enq x :: rest => list_model (xs ++ [x]) rest
  | queue_op.deq :: rest =>
    match xs with
    | [] => none
    | y :: ys =>
      match list_model ys rest with
      | some (outs, final) => some (y :: outs, final)
      | none => none

/-- The queue after `enqueue` of the item pointer 7 on a new queue. -/
def queue_one_item : queue_t :=
  { create_queue with
    front := some 0, rear := some 0, items := 1
    heap := [some { item := some 7, next := none }] }

/-- A destroy hook. -/
def destroy_item : pointer → Unit := fun _ => ()

end Queue

/-!
The worker of `src/src/server.c`.

A client descriptor is the list of the results that `read` will deliver, in
order; a list that has run out behaves as the end of the stream. The
response header and the payload handed to `writeNBytes` are recorded as the
output of the worker; the client is taken to accept every write. The locals
`request_header` and `response_header` are declared without initialiser, so
their contents at the start of an iteration are an input of the model.
Allocation is taken to succeed, and the contents of a new buffer are an
input as well.
-/

namespace Server

open Hashmap

/-- Modelled from the spec: the constants of cream.h, which is not part of
the sources. The request codes, the response codes and the size bounds are
named by the spec and their numeric values are fixed by the protocol; they
are parameters here. -/
structure cream_constants where
  PUT : Nat
  GET : Nat
  EVICT : Nat
  CLEAR : Nat
  OK : Nat
  UNSUPPORTED : Nat
  BAD_REQUEST : Nat
  NOT_FOUND : Nat
  MIN_KEY_SIZE : Nat
  MAX_KEY_SIZE : Nat
  MIN_VALUE_SIZE : Nat
  MAX_VALUE_SIZE : Nat

/-- Modelled from the spec: the request header of cream.h, three `u32`
fields laid out in this order. -/
structure request_header_t where
  request_code : Nat
  key_size : Nat
  value_size : Nat
  deriving DecidableEq

/-- Modelled from the spec: the response header of cream.h, two `u32`
fields. -/
structure response_header_t where
  response_code : Nat
  value_size : Nat
  deriving DecidableEq

/-- Value of `sizeof(request_header_t)`: three `u32` fields. -/
def REQUEST_HEADER_SIZE : Nat := 12

/-- Modelled from the spec: a `u32` in host byte order, taken to be little
endian, read from up to four bytes. -/
def u32_host (bs : List Nat) : Nat := (bs.take 4).foldr (fun b acc => b + 256 * acc) 0

/-- The fields of the request header held in its twelve bytes of storage. -/
def decode_request_header (storage : List Nat) : request_header_t :=
  { request_code := u32_host storage
    key_size := u32_host (storage.drop 4)
    value_size := u32_host (storage.drop 8) }

/-- Function `isKeyValid`, server.c lines 111-121: the returned boolean and
the response header after the call. -/
def isKeyValid (c : cream_constants) (request_header : request_header_t)
    (response_header : response_header_t) : Bool × response_header_t :=
  if request_header.key_size ≥ c.MIN_KEY_SIZE && request_header.key_size ≤ c.MAX_KEY_SIZE then
    (true, response_header)
  else (false, { response_header with response_code := c.BAD_REQUEST })

/-- Function `isValValid`, server.c lines 122-129: the returned boolean
and the response header after the call. -/
def isValValid (c : cream_constants) (request_header : request_header_t)
    (response_header : response_header_t) : Bool × response_header_t :=
  if request_header.value_size ≥ c.MIN_VALUE_SIZE
      && request_header.value_size ≤ c.MAX_VALUE_SIZE then
    (true, response_header)
  else (false, { response_header with response_code := c.BAD_REQUEST })

/-- One result of the system call `read`: the bytes that are available to
the call (`read` returns their number, at most the number asked for, and 0
at the end of the stream), or a failure with the given `errno`. -/
inductive read_event where
  | data (bytes : List Nat)
  | error (errno : Nat)
  deriving DecidableEq

/-- Value of `EINTR` in errno.h. -/
def EINTR : Nat := 4

/-- What `readNBytes` leaves behind: the returned `int`, the bytes stored
in the buffer so far, and the results that the descriptor has yet to
deliver. -/
structure read_outcome where
  count : Int
  bytes : List Nat
  rest : List read_event
  deriving DecidableEq

/-- The loop of `readNBytes`, server.c lines 136-150, by cases on the next
result `x` of `read(client_fd, bufferPtr, leftToRead)`. The second argument
is `leftToRead` and `buffer` holds the bytes stored so far. When `read`
delivers all the bytes still missing, `leftToRead` becomes 0 and the loop
ends at once. -/
def readNBytes_loop (bytesToRead : Nat) :
    List read_event → Nat → List Nat → read_outcome
  | fd, 0, buffer => { count := (bytesToRead : Int) - 0, bytes := buffer, rest := fd }
  | [], leftToRead + 1, buffer =>
    { count := (bytesToRead : Int) - ((leftToRead + 1 : Nat) : Int), bytes := buffer, rest := [] }
  | read_event.error errno :: fd, leftToRead + 1, buffer =>
    if errno = EINTR then readNBytes_loop bytesToRead fd (leftToRead + 1 - 0) buffer
    else { count := -1, bytes := buffer, rest := fd }
  | read_event.data available :: fd, leftToRead + 1, buffer =>
    if available.length = 0 then
      { count := (bytesToRead : Int) - ((leftToRead + 1 : Nat) : Int), bytes := buffer
        rest := read_event.data available :: fd }
    else if available.length < leftToRead + 1 then
      readNBytes_loop bytesToRead fd (leftToRead + 1 - available.length) (buffer ++ available)
    else
      { count := (bytesToRead : Int) - 0
        bytes := buffer ++ available.take (leftToRead + 1)
        rest :=
          if available.length = leftToRead + 1 then fd
          else read_event.data (available.drop (leftToRead + 1)) :: fd }

/-- Function `readNBytes`, server.c lines 131-151. The byte count is taken
to fit the C `int`. -/
def readNBytes (client_fd : List read_event) (bytesToRead : Nat) : read_outcome :=
  readNBytes_loop bytesToRead client_fd bytesToRead []

/-- The bytes that a sequence of results of `read` hands over, in order. -/
def delivered : List read_event → List Nat
  | [] => []
  | read_event.data bytes :: rest => bytes ++ delivered rest
  | read_event.error _ :: rest => delivered rest

/-- A result of `read` that is neither the end of the stream nor an
unrecoverable failure: a positive number of bytes, or a failure with
errno = EINTR. -/
def is_retried : read_event → Bool
  | read_event.data bytes => decide (0 < bytes.length)
  | read_event.error errno => decide (errno = EINTR)

/-- The contents of the locals `request_header` (its twelve bytes of
storage) and `response_header` of `worker_function`. -/
structure worker_locals where
  request_header : List Nat
  response_header : response_header_t
  deriving DecidableEq

/-- What one iteration of the worker has done when it closes the
descriptor: the response header written at line 300, the payload written
at line 302 if any, the store, the results the descriptor had yet to
deliver, and the contents of the locals. -/
structure worker_result where
  response_header : response_header_t
  payload : Option (List Nat)
  server_hashmap : hashmap_t
  client_fd : List read_event
  locals : worker_locals

/-- The state that a branch of the dispatch hands to the writes at the end
of the iteration. -/
structure branch_result where
  response_header : response_header_t
  map_value : map_val_t
  server_hashmap : hashmap_t
  client_fd : List read_event

/-- A buffer returned by `malloc(size)` after `readNBytes` has stored
`bytes` at its start: the rest keeps the contents the buffer came with. -/
def filled_buffer (malloc_contents : Nat → List Nat) (size : Nat) (bytes : List Nat) :
    List Nat :=
  bytes ++ (malloc_contents size).drop bytes.length

/-- The PUT branch of `worker_function`, server.c lines 197-230. -/
def put_branch (c : cream_constants) (malloc_contents : Nat → List Nat)
    (request_header : request_header_t) (response_header : response_header_t)
    (server_hashmap : hashmap_t) (client_fd : List read_event) : Outcome branch_result :=
  let key_check := isKeyValid c request_header response_header
  if key_check.1 then
    let val_check := isValValid c request_header key_check.2
    if val_check.1 then
      let key_read := readNBytes client_fd request_header.key_size
      let key := filled_buffer malloc_contents request_header.key_size key_read.bytes
      let after_key : response_header_t :=
        if key_read.count < 0 then { response_code := c.BAD_REQUEST, value_size := 0 }
        else val_check.2
      let value_read := readNBytes key_read.rest request_header.value_size
      let value := filled_buffer malloc_contents request_header.value_size value_read.bytes
      let after_value : response_header_t :=
        if value_read.count < 0 then { response_code := c.BAD_REQUEST, value_size := 0 }
        else after_key
      if after_value.response_code != c.BAD_REQUEST then
        match put server_hashmap (MAP_KEY (some key) request_header.key_size)
            (MAP_VAL (some value) request_header.value_size) true with
        | .returns (true, m) =>
          .returns ⟨{ response_code := c.OK, value_size := 0 }, MAP_VAL none 0, m,
            value_read.rest⟩
        | .returns (false, m) =>
          .returns ⟨{ response_code := c.BAD_REQUEST, value_size := 0 }, MAP_VAL none 0, m,
            value_read.rest⟩
        | .out_of_bounds => .out_of_bounds
        | .blocks => .blocks
      else .returns ⟨after_value, MAP_VAL none 0, server_hashmap, value_read.rest⟩
    else .returns ⟨val_check.2, MAP_VAL none 0, server_hashmap, client_fd⟩
  else .returns ⟨key_check.2, MAP_VAL none 0, server_hashmap, client_fd⟩

/-- The GET branch of `worker_function`, server.c lines 231-258. -/
def get_branch (c : cream_constants) (malloc_contents : Nat → List Nat)
    (request_header : request_header_t) (response_header : response_header_t)
    (server_hashmap : hashmap_t) (client_fd : List read_event) : Outcome branch_result :=
  let key_check := isKeyValid c request_header response_header
  if key_check.1 then
    let key_read := readNBytes client_fd request_header.key_size
    let key := filled_buffer malloc_contents request_header.key_size key_read.bytes
    let after_key : response_header_t :=
      if key_read.count < 0 then { response_code := c.BAD_REQUEST, value_size := 0 }
      else key_check.2
    if after_key.response_code != c.BAD_REQUEST then
      match get server_hashmap (MAP_KEY (some key) request_header.key_size) with
      | .returns map_value =>
        if map_value.val_base.isSome && map_value.val_len != 0 then
          .returns ⟨{ response_code := c.OK, value_size := map_value.val_len }, map_value,
            server_hashmap, key_read.rest⟩
        else
          .returns ⟨{ response_code := c.NOT_FOUND, value_size := 0 }, map_value,
            server_hashmap, key_read.rest⟩
      | .out_of_bounds => .out_of_bounds
      | .blocks => .blocks
    else .returns ⟨after_key, MAP_VAL none 0, server_hashmap, key_read.rest⟩
  else .returns ⟨key_check.2, MAP_VAL none 0, server_hashmap, client_fd⟩

/-- The EVICT branch of `worker_function`, server.c lines 260-284. -/
def evict_branch (c : cream_constants) (malloc_contents : Nat → List Nat)
    (request_header : request_header_t) (response_header : response_header_t)
    (server_hashmap : hashmap_t) (client_fd : List read_event) : Outcome branch_result :=
  let key_check := isKeyValid c request_header response_header
  if key_check.1 then
    let key_read := readNBytes client_fd request_header.key_size
    let key := filled_buffer malloc_contents request_header.key_size key_read.bytes
    let after_key : response_header_t :=
      if key_read.count < 0 then { response_code := c.BAD_REQUEST, value_size := 0 }
      else key_check.2
    if after_key.response_code != c.BAD_REQUEST then
      match delete server_hashmap (MAP_KEY (some key) request_header.key_size) with
      | .returns (map_node, m) =>
        if map_node.key.key_base.isSome || map_node.key.key_len != 0 then
          .returns ⟨{ response_code := c.OK, value_size := 0 }, MAP_VAL none 0, m,
            key_read.rest⟩
        else
          .returns ⟨{ response_code := c.NOT_FOUND, value_size := 0 }, MAP_VAL none 0, m,
            key_read.rest⟩
      | .out_of_bounds => .out_of_bounds
      | .blocks => .blocks
    else .returns ⟨after_key, MAP_VAL none 0, server_hashmap, key_read.rest⟩
  else .returns ⟨key_check.2, MAP_VAL none 0, server_hashmap, client_fd⟩

/-- The CLEAR branch of `worker_function`, server.c lines 285-292. -/
def clear_branch (c : cream_constants) (server_hashmap : hashmap_t)
    (client_fd : List read_event) : Outcome branch_result :=
  match clear_map server_hashmap with
  | .returns (false, m) =>
    .returns ⟨{ response_code := c.BAD_REQUEST, value_size := 0 }, MAP_VAL none 0, m, client_fd⟩
  | .returns (true, m) =>
    .returns ⟨{ response_code := c.OK, value_size := 0 }, MAP_VAL none 0, m, client_fd⟩
  | .out_of_bounds => .out_of_bounds
  | .blocks => .blocks

/-- The payload that lines 301-303 of `worker_function` write after the
response header, if any. -/
def payload_of (map_value : map_val_t) : Option (List Nat) :=
  if map_value.val_len != 0 && map_value.val_base.isSome then
    some ((buffer_bytes map_value.val_base).take map_value.val_len)
  else none

/-- One iteration of the loop of `worker_function`, server.c lines 178-306,
for a descriptor that `dequeue` has returned. -/
def worker_iteration (c : cream_constants) (malloc_contents : Nat → List Nat)
    (server_hashmap : hashmap_t) (locals : worker_locals) (client_fd : List read_event) :
    Outcome worker_result :=
  let header_read := readNBytes client_fd REQUEST_HEADER_SIZE
  let storage := header_read.bytes ++ locals.request_header.drop header_read.bytes.length
  let request_header := decode_request_header storage
  let dispatched : Outcome branch_result :=
    if header_read.count < 0 then
      .returns ⟨{ response_code := c.BAD_REQUEST, value_size := 0 }, MAP_VAL none 0,
        server_hashmap, header_read.rest⟩
    else if request_header.request_code = c.PUT then
      put_branch c malloc_contents request_header locals.response_header server_hashmap
        header_read.rest
    else if request_header.request_code = c.GET then
      get_branch c malloc_contents request_header locals.response_header server_hashmap
        header_read.rest
    else if request_header.request_code = c.EVICT then
      evict_branch c malloc_contents request_header locals.response_header server_hashmap
        header_read.rest
    else if request_header.request_code = c.CLEAR then
      clear_branch c server_hashmap header_read.rest
    else
      .returns ⟨{ response_code := c.UNSUPPORTED, value_size := 0 }, MAP_VAL none 0,
        server_hashmap, header_read.rest⟩
  match dispatched with
  | .returns b =>
    .returns
      { response_header := b.response_header
        payload := payload_of b.map_value
        server_hashmap := b.server_hashmap
        client_fd := b.client_fd
        locals := { request_header := storage, response_header := b.response_header } }
  | .out_of_bounds => .out_of_bounds
  | .blocks => .blocks

/-- The request header that `worker_function` holds after the read of
line 193: the bytes received, over the previous contents of the local. -/
def received_header (locals : worker_locals) (client_fd : List read_event) :
    request_header_t :=
  decode_request_header
    ((readNBytes client_fd REQUEST_HEADER_SIZE).bytes ++
      locals.request_header.drop (readNBytes client_fd REQUEST_HEADER_SIZE).bytes.length)

/-! Concrete constants and requests for the worked cases. -/

/-- A choice of the constants of cream.h for the worked cases; no result
below depends on the numeric values. -/
def cream_h : cream_constants :=
  { PUT := 1, GET := 2, EVICT := 4, CLEAR := 8
    OK := 200, UNSUPPORTED := 220, BAD_REQUEST := 400, NOT_FOUND := 404
    MIN_KEY_SIZE := 1, MAX_KEY_SIZE := 1024, MIN_VALUE_SIZE := 1, MAX_VALUE_SIZE := 2048 }

/-- New buffers that come filled with zero bytes. -/
def zero_filled : Nat → List Nat := fun size => List.replicate size 0

/-- The twelve header bytes of a request. -/
def header_bytes (request_code key_size value_size : Nat) : List Nat :=
  [request_code, 0, 0, 0, key_size, 0, 0, 0, value_size, 0, 0, 0]

/-- Locals whose request storage is zero and whose response header is the
given one. -/
def locals_with (response_code value_size : Nat) : worker_locals :=
  { request_header := List.replicate 12 0
    response_header := { response_code := response_code, value_size := value_size } }

end Server

namespace Hashmap

/-! Basic facts about the key comparison and the probe loop of `put`. -/
theorem key_matches_iff (k : map_key_t) (n : map_node_t) :
    key_matches k n = true ↔ keys_equal k n.key := by
  unfold key_matches keys_equal memcmp
  by_cases h : (buffer_bytes k.key_base).take k.key_len = (buffer_bytes n.key.key_base).take k.key_len
  · simp [h]
  · simp [h]

theorem keys_equal_symm {a b : map_key_t} (h : keys_equal a b) : keys_equal b a := by
  obtain ⟨h1, h2⟩ := h
  exact ⟨h1.symm, by rw [← h1]; exact h2.symm⟩

theorem keys_equal_trans {a b c : map_key_t} (h : keys_equal a b) (h' : keys_equal b c) :
    keys_equal a c := by
  obtain ⟨h1, h2⟩ := h
  obtain ⟨h3, h4⟩ := h'
  refine ⟨h1.trans h3, ?_⟩
  rw [← h1] at h4
  exact h2.trans h4

theorem put_loop_succ (self : hashmap_t) (key : map_key_t) (val : map_val_t) (i n : Nat) :
    put_loop self key val i (n + 1) =
      match self.nodes[i % self.capacity]? with
      | none => none
      | some nd =>
        if slot_accepts key nd = true then some (true, place_entry self (i % self.capacity) key val)
        else put_loop self key val (i + 1) n := by
  simp only [put_loop]
  cases self.nodes[i % self.capacity]? with
  | none => rfl
  | some nd =>
    simp only [slot_accepts]
    by_cases h1 : node_is_empty nd = true <;> by_cases h2 : nd.tombstone = true <;>
      by_cases h3 : key_matches key nd = true <;> simp [h1, h2, h3]

theorem put_loop_false (self : hashmap_t) (key : map_key_t) (val : map_val_t) :
    ∀ (n i : Nat) (m' : hashmap_t), put_loop self key val i n = some (false, m') → m' = self := by
  intro n
  induction n with
  | zero =>
    intro i m' h
    simp only [put_loop, Option.some.injEq, Prod.mk.injEq, true_and] at h
    exact h.symm
  | succ n ih =>
    intro i m' h
    rw [put_loop_succ] at h
    cases hnd : self.nodes[i % self.capacity]? with
    | none => rw [hnd] at h; simp at h
    | some nd =>
      rw [hnd] at h
      by_cases hacc : slot_accepts key nd = true
      · simp [hacc] at h
      · simp only [hacc] at h
        exact ih (i + 1) m' h

theorem put_loop_spec (self : hashmap_t) (key : map_key_t) (val : map_val_t)
    (hlen : self.nodes.length = self.capacity) (hcap : 0 < self.capacity) :
    ∀ (n i : Nat),
      (∃ t, t < n ∧
        (∃ nd, self.nodes[(i + t) % self.capacity]? = some nd ∧ slot_accepts key nd = true) ∧
        (∀ t', t' < t →
          ∃ nd, self.nodes[(i + t') % self.capacity]? = some nd ∧ slot_accepts key nd = false) ∧
        put_loop self key val i n
          = some (true, place_entry self ((i + t) % self.capacity) key val))
      ∨ ((∀ t', t' < n →
          ∃ nd, self.nodes[(i + t') % self.capacity]? = some nd ∧ slot_accepts key nd = false) ∧
        put_loop self key val i n = some (false, self)) := by
  intro n
  induction n with
  | zero =>
    intro i
    right
    exact ⟨fun t' ht' => absurd ht' (Nat.not_lt_zero _), rfl⟩
  | succ n ih =>
    intro i
    have hlt : i % self.capacity < self.nodes.length := by
      rw [hlen]; exact Nat.mod_lt _ hcap
    obtain ⟨nd, hnd⟩ : ∃ nd, self.nodes[i % self.capacity]? = some nd :=
      ⟨_, List.getElem?_eq_getElem hlt⟩
    rw [put_loop_succ, hnd]
    by_cases hacc : slot_accepts key nd = true
    · left
      refine ⟨0, Nat.succ_pos _, ⟨nd, by simpa using hnd, hacc⟩, ?_, ?_⟩
      · intro t' ht'
        exact absurd ht' (Nat.not_lt_zero _)
      · simp [hacc]
    · have hrej : slot_accepts key nd = false := by simpa using hacc
      simp only [hacc]
      rcases ih (i + 1) with ⟨t, ht, hfound, hbefore, hres⟩ | ⟨hall, hres⟩
      · left
        have e : i + 1 + t = i + (t + 1) := by omega
        refine ⟨t + 1, by omega, by rw [← e]; exact hfound, ?_, by simp [hres, e]⟩
        intro t' ht'
        cases t' with
        | zero => exact ⟨nd, by simpa using hnd, hrej⟩
        | succ t'' =>
          have e' : i + 1 + t'' = i + (t'' + 1) := by omega
          rw [← e']
          exact hbefore t'' (by omega)
      · right
        refine ⟨?_, by simp [hres]⟩
        intro t' ht'
        cases t' with
        | zero => exact ⟨nd, by simpa using hnd, hrej⟩
        | succ t'' =>
          have e' : i + 1 + t'' = i + (t'' + 1) := by omega
          rw [← e']
          exact hall t'' (by omega)



theorem create_map_eq {capacity : Nat} {h : map_key_t → Nat} {d : map_key_t → map_val_t → Unit}
    {m : hashmap_t} (hm : create_map capacity (some h) (some d) = some m) :
    0 < capacity ∧ m.capacity = capacity ∧ m.size = 0 ∧
      m.nodes = List.replicate capacity (MAP_NODE (MAP_KEY none 0) (MAP_VAL none 0) false) ∧
      m.hash_function = h ∧ m.write_lock = false ∧ m.invalid = false := by
  unfold create_map at hm
  by_cases hc : capacity = 0
  · simp [hc] at hm
  · simp only [hc, if_false, Option.some.injEq] at hm
    subst hm
    exact ⟨Nat.pos_of_ne_zero hc, rfl, rfl, rfl, rfl, rfl, rfl⟩

/-- The three ways in which `put` returns on a well-formed store. -/
theorem put_returns_cases {m m' : hashmap_t} {k : map_key_t} {v : map_val_t} {f b : Bool}
    (hwf : well_formed m) (h : put m k v f = .returns (b, m')) :
    (b = false ∧ m'.nodes = m.nodes ∧ m'.size = m.size ∧ same_frame m m')
    ∨ (b = true ∧ key_nonempty k ∧ val_nonempty v ∧ m.capacity ≤ m.size ∧ f = true ∧
        m'.nodes = m.nodes.set (get_index m k) (MAP_NODE k v false) ∧ m'.size = m.size ∧
        m'.write_lock = false ∧ same_frame m m')
    ∨ (b = true ∧ key_nonempty k ∧ val_nonempty v ∧ m.size < m.capacity ∧
        m.write_lock = false ∧ m.invalid = false ∧
        ∃ t, t < m.capacity ∧
          (∃ nd, m.nodes[(get_index m k + t) % m.capacity]? = some nd ∧
            slot_accepts k nd = true) ∧
          (∀ t', t' < t → ∃ nd, m.nodes[(get_index m k + t') % m.capacity]? = some nd ∧
            slot_accepts k nd = false) ∧
          m'.nodes = m.nodes.set ((get_index m k + t) % m.capacity) (MAP_NODE k v false) ∧
          m'.size = (m.size + 1) % UINT32_MODULUS ∧ m'.write_lock = false ∧ same_frame m m') := by
  obtain ⟨hlen, hcap, _⟩ := hwf
  unfold put at h
  split at h
  · -- invalid argument
    left
    simp only [Outcome.returns.injEq, Prod.mk.injEq] at h
    obtain ⟨hb, hm⟩ := h
    subst hm
    exact ⟨hb.symm, rfl, rfl, rfl, rfl, rfl⟩
  · rename_i hargs
    have hk : key_nonempty k ∧ val_nonempty v ∧ m.invalid = false := by
      simp only [Bool.or_eq_true, not_or, Option.isNone_iff_eq_none, beq_iff_eq,
        Bool.not_eq_true] at hargs
      exact ⟨⟨hargs.1.1.1.1, hargs.1.1.1.2⟩, ⟨hargs.1.1.2, hargs.1.2⟩, hargs.2⟩
    split at h
    · exact absurd h (by simp)
    · rename_i hlock
      have hlock' : m.write_lock = false := by simpa using hlock
      simp only at h
      split at h
      · -- full, not forced
        left
        simp only [Outcome.returns.injEq, Prod.mk.injEq] at h
        obtain ⟨hb, hm⟩ := h
        subst hm
        exact ⟨hb.symm, rfl, rfl, rfl, rfl, rfl⟩
      · rename_i hfull
        split at h
        · -- full, forced
          rename_i hforce
          simp only [Bool.and_eq_true, decide_eq_true_eq, beq_iff_eq] at hforce
          split at h
          · right; left
            simp only [Outcome.returns.injEq, Prod.mk.injEq] at h
            obtain ⟨hb, hm⟩ := h
            subst hm
            exact ⟨hb.symm, hk.1, hk.2.1, hforce.1, hforce.2, rfl, rfl, rfl, rfl, rfl, rfl⟩
          · exact absurd h (by simp)
        · rename_i hnf
          have hsz : m.size < m.capacity := by
            simp only [Bool.and_eq_true, decide_eq_true_eq, beq_iff_eq, not_and] at hfull hnf
            by_contra hc
            have hge : m.capacity ≤ m.size := Nat.le_of_not_lt hc
            cases f with
            | false => exact hfull hge rfl
            | true => exact hnf hge rfl
          have hfuel : (m.capacity + get_index m k) % UINT32_MODULUS - get_index m k
              ≤ m.capacity := by
            have := Nat.mod_le (m.capacity + get_index m k) UINT32_MODULUS
            omega
          have hspec := put_loop_spec { m with write_lock := true } k v hlen hcap
            ((m.capacity + get_index m k) % UINT32_MODULUS - get_index m k) (get_index m k)
          rcases hspec with ⟨t, ht, hfound, hbefore, hres⟩ | ⟨_, hres⟩
          · rw [hres] at h
            simp only [Outcome.returns.injEq, Prod.mk.injEq] at h
            obtain ⟨hb, hm⟩ := h
            subst hm
            right; right
            exact ⟨hb.symm, hk.1, hk.2.1, hsz, hlock', hk.2.2, t, Nat.lt_of_lt_of_le ht hfuel,
              hfound, hbefore, rfl, rfl, rfl, rfl, rfl, rfl⟩
          · rw [hres] at h
            simp only [Outcome.returns.injEq, Prod.mk.injEq] at h
            obtain ⟨hb, hm⟩ := h
            subst hm
            left
            exact ⟨hb.symm, rfl, rfl, rfl, rfl, rfl⟩

theorem probe_loop_found (m : hashmap_t) (k : map_key_t)
    (hlen : m.nodes.length = m.capacity) :
    ∀ (n i j : Nat), probe_loop m k i n = some (some j) →
      ∃ nd, m.nodes[j]? = some nd ∧ nd.tombstone = false ∧ key_matches k nd = true := by
  intro n
  induction n with
  | zero =>
    intro i j h
    simp [probe_loop] at h
  | succ n ih =>
    intro i j h
    simp only [probe_loop] at h
    cases hi : m.nodes[i]? with
    | none => rw [hi] at h; simp at h
    | some node_i =>
      rw [hi] at h
      have hlt : i < m.capacity := by
        rw [← hlen]
        exact (List.getElem?_eq_some.mp hi).1
      have hmod : i % m.capacity = i := Nat.mod_eq_of_lt hlt
      rw [hmod, hi] at h
      by_cases htomb : node_i.tombstone = false
      · by_cases hkey : key_matches k node_i = true
        · simp only [htomb, hkey, beq_self_eq_true, if_true, Option.some.injEq] at h
          subst h
          exact ⟨node_i, hi, htomb, hkey⟩
        · simp only [htomb, hkey, beq_self_eq_true, if_true] at h
          exact ih (i + 1) j h
      · have htomb' : node_i.tombstone = true := by simpa using htomb
        simp only [htomb'] at h
        exact ih (i + 1) j h

theorem clear_loop_getElem :
    ∀ (n i : Nat) (nodes cleared : List map_node_t), clear_loop nodes i n = some cleared →
      ∀ j : Nat, cleared[j]? =
        if i ≤ j ∧ j < i + n then (nodes[j]?).map clear_node else nodes[j]? := by
  intro n
  induction n with
  | zero =>
    intro i nodes cleared h j
    simp only [clear_loop, Option.some.injEq] at h
    subst h
    have : ¬ (i ≤ j ∧ j < i + 0) := by omega
    rw [if_neg this]
  | succ n ih =>
    intro i nodes cleared h j
    simp only [clear_loop] at h
    cases hi : nodes[i]? with
    | none => rw [hi] at h; simp at h
    | some node_i =>
      rw [hi] at h
      have hrec := ih (i + 1) _ cleared h j
      rw [hrec]
      have hlt : i < nodes.length := (List.getElem?_eq_some.mp hi).1
      by_cases hji : j = i
      · subst hji
        have h1 : ¬ (j + 1 ≤ j ∧ j < j + 1 + n) := by omega
        have h2 : j ≤ j ∧ j < j + (n + 1) := by omega
        simp [h1, h2, hi, List.getElem?_set, hlt]
      · have hne : i ≠ j := fun e => hji e.symm
        rw [List.getElem?_set_ne hne]
        by_cases hr : i + 1 ≤ j ∧ j < i + 1 + n
        · have h2 : i ≤ j ∧ j < i + (n + 1) := by omega
          simp [hr, h2]
        · have h2 : ¬ (i ≤ j ∧ j < i + (n + 1)) := by omega
          simp [hr, h2]

theorem clear_loop_total :
    ∀ (n i : Nat) (nodes : List map_node_t), i + n ≤ nodes.length →
      ∃ cleared, clear_loop nodes i n = some cleared := by
  intro n
  induction n with
  | zero =>
    intro i nodes _
    exact ⟨nodes, rfl⟩
  | succ n ih =>
    intro i nodes h
    have hlt : i < nodes.length := by omega
    simp only [clear_loop, List.getElem?_eq_getElem hlt]
    exact ih (i + 1) _ (by simp; omega)

theorem clear_loop_all (nodes cleared : List map_node_t)
    (h : clear_loop nodes 0 nodes.length = some cleared) : cleared = nodes.map clear_node := by
  apply List.ext_getElem?
  intro j
  rw [clear_loop_getElem _ _ _ _ h j]
  by_cases hj : j < nodes.length
  · have : 0 ≤ j ∧ j < 0 + nodes.length := by omega
    rw [if_pos this, List.getElem?_map]
  · have : ¬ (0 ≤ j ∧ j < 0 + nodes.length) := by omega
    rw [if_neg this, List.getElem?_eq_none (Nat.le_of_not_lt hj),
      List.getElem?_eq_none (by simpa using Nat.le_of_not_lt hj)]

/-- The two ways in which `delete` returns on a well-formed store. -/
theorem delete_returns_cases {m m' : hashmap_t} {k : map_key_t} {n : map_node_t}
    (hwf : well_formed m) (h : delete m k = .returns (n, m')) :
    (m'.nodes = m.nodes ∧ m'.size = m.size ∧ m'.write_lock = m.write_lock ∧ same_frame m m')
    ∨ (∃ j nd, m.nodes[j]? = some nd ∧ node_is_live nd = true ∧ key_matches k nd = true ∧
        key_nonempty k ∧ n = { nd with tombstone := true } ∧
        m'.nodes = m.nodes.set j { nd with tombstone := true } ∧
        m'.size = (m.size + UINT32_MODULUS - 1) % UINT32_MODULUS ∧
        m'.write_lock = m.write_lock ∧ same_frame m m') := by
  obtain ⟨hlen, hcap, _⟩ := hwf
  unfold delete at h
  split at h
  · left
    simp only [Outcome.returns.injEq, Prod.mk.injEq] at h
    obtain ⟨_, hm⟩ := h
    subst hm
    exact ⟨rfl, rfl, rfl, rfl, rfl, rfl⟩
  · rename_i hargs
    have hk : key_nonempty k := by
      simp only [Bool.or_eq_true, not_or, Option.isNone_iff_eq_none, beq_iff_eq,
        Bool.not_eq_true] at hargs
      exact ⟨hargs.1.1, hargs.1.2⟩
    split at h
    · exact absurd h (by simp)
    · split at h
      · exact absurd h (by simp)
      · left
        simp only [Outcome.returns.injEq, Prod.mk.injEq] at h
        obtain ⟨_, hm⟩ := h
        subst hm
        exact ⟨rfl, rfl, rfl, rfl, rfl, rfl⟩
      · rename_i j hprobe
        obtain ⟨nd, hnd, htomb, hkey⟩ := probe_loop_found m k hlen _ _ _ hprobe
        rw [hnd] at h
        simp only at h
        split at h
        · rename_i hne
          simp only [Outcome.returns.injEq, Prod.mk.injEq] at h
          obtain ⟨hn, hm⟩ := h
          subst hm
          right
          refine ⟨j, nd, hnd, ?_, hkey, hk, hn.symm, rfl, rfl, rfl, rfl, rfl, rfl⟩
          simp only [node_is_live, htomb, Bool.not_false, Bool.and_true]
          exact hne
        · left
          simp only [Outcome.returns.injEq, Prod.mk.injEq] at h
          obtain ⟨_, hm⟩ := h
          subst hm
          exact ⟨rfl, rfl, rfl, rfl, rfl, rfl⟩

/-- The two ways in which `clear_map` returns on a well-formed store. -/
theorem clear_map_returns_cases {m m' : hashmap_t} {b : Bool}
    (hwf : well_formed m) (h : clear_map m = .returns (b, m')) :
    (b = false ∧ m.invalid = true ∧ m'.nodes = m.nodes ∧ m'.size = m.size ∧
      m'.write_lock = m.write_lock ∧ same_frame m m')
    ∨ (b = true ∧ m.invalid = false ∧ m.write_lock = false ∧
        m'.nodes = m.nodes.map clear_node ∧ m'.size = 0 ∧
        m'.write_lock = false ∧ same_frame m m') := by
  obtain ⟨hlen, hcap, _⟩ := hwf
  unfold clear_map at h
  split at h
  · rename_i hinv
    left
    simp only [Outcome.returns.injEq, Prod.mk.injEq] at h
    obtain ⟨hb, hm⟩ := h
    subst hm
    exact ⟨hb.symm, hinv, rfl, rfl, rfl, rfl, rfl, rfl⟩
  · rename_i hinv
    split at h
    · exact absurd h (by simp)
    · rename_i hlock
      split at h
      · exact absurd h (by simp)
      · rename_i cleared hcl
        rw [← hlen] at hcl
        have hmap := clear_loop_all _ _ hcl
        simp only [Outcome.returns.injEq, Prod.mk.injEq] at h
        obtain ⟨hb, hm⟩ := h
        subst hm
        right
        exact ⟨hb.symm, by simpa using hinv, by simpa using hlock, hmap, rfl,
          by simpa using hlock, rfl, rfl, rfl⟩

theorem node_is_live_clear_node (n : map_node_t) : node_is_live (clear_node n) = false := by
  simp [node_is_live, clear_node, node_is_empty, MAP_KEY]

theorem node_is_live_tombstoned (n : map_node_t) :
    node_is_live { n with tombstone := true } = false := by
  simp [node_is_live]

theorem node_is_live_placed {k : map_key_t} {v : map_val_t} (hk : key_nonempty k)
    (hv : val_nonempty v) : node_is_live (MAP_NODE k v false) = true := by
  obtain ⟨hk1, hk2⟩ := hk
  obtain ⟨hv1, hv2⟩ := hv
  cases hkb : k.key_base with
  | none => exact absurd hkb hk1
  | some kb =>
    cases hvb : v.val_base with
    | none => exact absurd hvb hv1
    | some vb => simp [node_is_live, node_is_empty, MAP_NODE, hkb, hvb, hk2, hv2]

theorem countP_set_le (p : map_node_t → Bool) (l : List map_node_t) (j : Nat) (x : map_node_t) :
    (l.set j x).countP p ≤ l.countP p + 1 := by
  by_cases hj : j < l.length
  · rw [List.countP_set p l j x hj]
    split <;> split <;> omega
  · rw [List.set_eq_of_length_le (Nat.le_of_not_lt hj)]
    omega

theorem size_invariant_create {capacity : Nat} {h : map_key_t → Nat}
    {d : map_key_t → map_val_t → Unit} {m : hashmap_t} (hc : capacity < UINT32_MODULUS)
    (hm : create_map capacity (some h) (some d) = some m) : size_invariant m := by
  obtain ⟨hpos, hcap, hsize, hnodes, _, _, _⟩ := create_map_eq hm
  refine ⟨⟨by rw [hnodes, hcap]; simp, by rw [hcap]; exact hpos, by rw [hcap]; exact hc⟩, ?_, ?_⟩
  · rw [hsize]
    unfold live_count
    rw [hnodes, List.countP_replicate]
    simp [node_is_live, node_is_empty, MAP_NODE, MAP_KEY]
  · rw [hsize]; exact Nat.zero_le _

theorem size_invariant_put {m m' : hashmap_t} {k : map_key_t} {v : map_val_t} {f b : Bool}
    (hinv : size_invariant m) (h : put m k v f = .returns (b, m')) :
    size_invariant m' ∧ (m'.size = m.size ∨ m'.size = m.size + 1) := by
  obtain ⟨hwf, hlive, hsize⟩ := hinv
  have hwf0 := hwf
  obtain ⟨hlen, hcap, hmax⟩ := hwf
  rcases put_returns_cases hwf0 h with
    ⟨_, hn, hs, hc, _, _⟩ | ⟨_, _, _, hfull, _, hn, hs, _, hc, _, _⟩ |
    ⟨_, _, _, hlt, _, _, t, _, _, _, hn, hs, _, hc, _, _⟩
  · refine ⟨⟨⟨by rw [hn, hc]; exact hlen, by rw [hc]; exact hcap, by rw [hc]; exact hmax⟩,
      ?_, by rw [hs, hc]; exact hsize⟩, Or.inl hs⟩
    unfold live_count at *
    rw [hn, hs]; exact hlive
  · refine ⟨⟨⟨by rw [hn, hc]; simp [hlen], by rw [hc]; exact hcap, by rw [hc]; exact hmax⟩,
      ?_, by rw [hs, hc]; exact hsize⟩, Or.inl hs⟩
    unfold live_count
    rw [hs]
    calc m'.nodes.countP node_is_live ≤ m'.nodes.length := List.countP_le_length _
      _ = m.capacity := by rw [hn]; simp [hlen]
      _ ≤ m.size := hfull
  · have hmod : (m.size + 1) % UINT32_MODULUS = m.size + 1 :=
      Nat.mod_eq_of_lt (by omega)
    rw [hmod] at hs
    refine ⟨⟨⟨by rw [hn, hc]; simp [hlen], by rw [hc]; exact hcap, by rw [hc]; exact hmax⟩,
      ?_, by rw [hs, hc]; omega⟩, Or.inr hs⟩
    unfold live_count at *
    rw [hn, hs]
    have := countP_set_le node_is_live m.nodes ((get_index m k + t) % m.capacity)
      (MAP_NODE k v false)
    omega

theorem size_invariant_delete {m m' : hashmap_t} {k : map_key_t} {n : map_node_t}
    (hinv : size_invariant m) (h : delete m k = .returns (n, m')) :
    size_invariant m' ∧ (m'.size = m.size ∨ m'.size + 1 = m.size) := by
  obtain ⟨hwf, hlive, hsize⟩ := hinv
  have hwf0 := hwf
  obtain ⟨hlen, hcap, hmax⟩ := hwf
  rcases delete_returns_cases hwf0 h with
    ⟨hn, hs, _, hc, _, _⟩ | ⟨j, nd, hnd, hl, _, _, _, hn, hs, _, hc, _, _⟩
  · refine ⟨⟨⟨by rw [hn, hc]; exact hlen, by rw [hc]; exact hcap, by rw [hc]; exact hmax⟩,
      ?_, by rw [hs, hc]; exact hsize⟩, Or.inl hs⟩
    unfold live_count at *
    rw [hn, hs]; exact hlive
  · obtain ⟨hj, hget⟩ := List.getElem?_eq_some.mp hnd
    have hcount := List.countP_set node_is_live m.nodes j { nd with tombstone := true } hj
    rw [hget, hl, node_is_live_tombstoned] at hcount
    have hge : 1 ≤ m.nodes.countP node_is_live := by
      have := List.boole_getElem_le_countP node_is_live m.nodes j hj
      rw [hget, hl] at this
      simpa using this
    simp only [if_true, Bool.false_eq_true, if_false, Nat.add_zero] at hcount
    unfold live_count at hlive
    have hmod : (m.size + UINT32_MODULUS - 1) % UINT32_MODULUS = m.size - 1 := by
      have e : m.size + UINT32_MODULUS - 1 = (m.size - 1) + UINT32_MODULUS := by omega
      rw [e, Nat.add_mod_right]
      exact Nat.mod_eq_of_lt (by omega)
    rw [hmod] at hs
    refine ⟨⟨⟨by rw [hn, hc]; simp [hlen], by rw [hc]; exact hcap, by rw [hc]; exact hmax⟩,
      ?_, by rw [hs, hc]; omega⟩, Or.inr (by rw [hs]; omega)⟩
    unfold live_count
    rw [hn, hcount, hs]
    omega

theorem size_invariant_clear_map {m m' : hashmap_t} {b : Bool}
    (hinv : size_invariant m) (h : clear_map m = .returns (b, m')) : size_invariant m' := by
  obtain ⟨hwf, hlive, hsize⟩ := hinv
  have hwf0 := hwf
  obtain ⟨hlen, hcap, hmax⟩ := hwf
  rcases clear_map_returns_cases hwf0 h with
    ⟨_, _, hn, hs, _, hc, _, _⟩ | ⟨_, _, _, hn, hs, _, hc, _, _⟩
  · refine ⟨⟨by rw [hn, hc]; exact hlen, by rw [hc]; exact hcap, by rw [hc]; exact hmax⟩,
      ?_, by rw [hs, hc]; exact hsize⟩
    unfold live_count at *
    rw [hn, hs]; exact hlive
  · refine ⟨⟨by rw [hn, hc]; simp [hlen], by rw [hc]; exact hcap, by rw [hc]; exact hmax⟩,
      ?_, by rw [hs]; exact Nat.zero_le _⟩
    unfold live_count
    rw [hn, hs, List.countP_map]
    have : (node_is_live ∘ clear_node) = fun _ => false := by
      funext x
      exact node_is_live_clear_node x
    rw [this]
    simp

theorem reachable_size_invariant {m : hashmap_t} (h : Reachable m) : size_invariant m := by
  induction h with
  | create capacity hf d m hc hm => exact size_invariant_create hc hm
  | put m key val force b m' _ hput ih => exact (size_invariant_put ih hput).1
  | delete m key n m' _ hdel ih => exact (size_invariant_delete ih hdel).1
  | clear_map m b m' _ hcl ih => exact size_invariant_clear_map ih hcl

/-- Every slot index is visited by a probe of `capacity` steps. -/
theorem probe_covers (cap s j : Nat) (hj : j < cap) : ∃ t, t < cap ∧ (s + t) % cap = j := by
  have hcap : 0 < cap := by omega
  have hs : s % cap < cap := Nat.mod_lt _ hcap
  by_cases hle : s % cap ≤ j
  · refine ⟨j - s % cap, by omega, ?_⟩
    rw [Nat.add_mod, Nat.mod_eq_of_lt (show j - s % cap < cap by omega)]
    have : s % cap + (j - s % cap) = j := by omega
    rw [this]
    exact Nat.mod_eq_of_lt hj
  · refine ⟨j + cap - s % cap, by omega, ?_⟩
    rw [Nat.add_mod, Nat.mod_eq_of_lt (show j + cap - s % cap < cap by omega)]
    have : s % cap + (j + cap - s % cap) = j + cap := by omega
    rw [this, Nat.add_mod_right]
    exact Nat.mod_eq_of_lt hj

/-- While twice the capacity fits the C `int`, the bound of the probe loop
of `put` does not wrap and the loop has `capacity` iterations. -/
theorem probe_bound_fits {m : hashmap_t} (k : map_key_t) (hcap : 0 < m.capacity)
    (hfit : 2 * m.capacity ≤ INT_MAX + 1) :
    (m.capacity + get_index m k) % UINT32_MODULUS - get_index m k = m.capacity := by
  have hidx : get_index m k < m.capacity := Nat.mod_lt _ hcap
  have hlt : m.capacity + get_index m k < UINT32_MODULUS := by
    simp only [INT_MAX, UINT32_MODULUS] at hfit ⊢
    omega
  rw [Nat.mod_eq_of_lt hlt]
  omega

/-- On valid arguments and an unlocked, valid, non-full store whose doubled
capacity fits the C `int`, `put` is its probe loop of `capacity` iterations. -/
theorem put_eq_loop {m : hashmap_t} {k : map_key_t} {v : map_val_t} (f : Bool)
    (hk : key_nonempty k) (hv : val_nonempty v) (hinv : m.invalid = false)
    (hlock : m.write_lock = false) (hsz : m.size < m.capacity)
    (hfit : 2 * m.capacity ≤ INT_MAX + 1) :
    put m k v f =
      match put_loop { m with write_lock := true } k v (get_index m k) m.capacity with
      | none => .out_of_bounds
      | some r => .returns r := by
  obtain ⟨hk1, hk2⟩ := hk
  obtain ⟨hv1, hv2⟩ := hv
  have hnot : ¬ (m.capacity ≤ m.size) := by omega
  have hfuel := probe_bound_fits k (Nat.lt_of_le_of_lt (Nat.zero_le _) hsz) hfit
  cases hkb : k.key_base with
  | none => exact absurd hkb hk1
  | some kb =>
    cases hvb : v.val_base with
    | none => exact absurd hvb hv1
    | some vb =>
      unfold put
      simp [hkb, hvb, hk2, hv2, hinv, hlock, hnot, hfuel]

theorem put_fresh_key {m : hashmap_t} {keys : List map_key_t} {k : map_key_t} {v : map_val_t}
    (hfill : fill_invariant m keys) (hsz : m.size < m.capacity)
    (hfit : 2 * m.capacity ≤ INT_MAX + 1)
    (hk : key_nonempty k) (hv : val_nonempty v)
    (hnew : ∀ k' ∈ keys, ¬ keys_equal k k') :
    ∃ m', put m k v false = .returns (true, m') ∧ m'.size = m.size + 1 ∧
      fill_invariant m' (k :: keys) := by
  obtain ⟨hwf, hinv, hlock, hcount, hnodes⟩ := hfill
  obtain ⟨hlen, hcap, hmax⟩ := hwf
  rw [put_eq_loop false hk hv hinv hlock hsz hfit]
  rcases put_loop_spec { m with write_lock := true } k v hlen hcap m.capacity (get_index m k)
    with ⟨t, ht, ⟨nd, hnd, hacc⟩, _, hres⟩ | ⟨hall, _⟩
  · rw [hres]
    simp only at hnd
    obtain ⟨hj, hget⟩ := List.getElem?_eq_some.mp hnd
    have hmem : nd ∈ m.nodes := by rw [← hget]; exact List.getElem_mem _
    have hempty : node_is_empty nd = true := by
      by_contra hne
      have hne' : node_is_empty nd = false := by simpa using hne
      obtain ⟨htomb, hkey⟩ := hnodes nd hmem hne'
      have hkm : key_matches k nd = false := by
        cases hm : key_matches k nd with
        | false => rfl
        | true => exact absurd ((key_matches_iff k nd).mp hm) (hnew _ hkey)
      simp [slot_accepts, hne', htomb, hkm] at hacc
    have hmod : (m.size + 1) % UINT32_MODULUS = m.size + 1 := Nat.mod_eq_of_lt (by omega)
    have hlive := node_is_live_placed hk hv
    have hne_new : node_is_empty (MAP_NODE k v false) = false := by
      simp only [node_is_live, Bool.and_eq_true, Bool.not_eq_true'] at hlive
      exact hlive.1
    refine ⟨_, rfl, hmod, ⟨?_, hcap, hmax⟩, hinv, rfl, ?_, ?_⟩
    · simp [place_entry, store_node, hlen]
    · show (m.size + 1) % UINT32_MODULUS
        = (m.nodes.set ((get_index m k + t) % m.capacity) (MAP_NODE k v false)).countP
            (fun n => !(node_is_empty n))
      rw [hmod, List.countP_set _ _ _ _ hj, hget, hcount]
      simp [hempty, hne_new]
    · intro nd' hmem' hne'
      rcases List.mem_or_eq_of_mem_set hmem' with hold | hnew'
      · obtain ⟨h1, h2⟩ := hnodes nd' hold hne'
        exact ⟨h1, List.mem_cons_of_mem _ h2⟩
      · subst hnew'
        exact ⟨rfl, List.mem_cons_self _ _⟩
  · exfalso
    have hfull : m.nodes.countP (fun n => !(node_is_empty n)) = m.nodes.length := by
      rw [List.countP_eq_length]
      intro a ha
      obtain ⟨j, hj, hja⟩ := List.getElem_of_mem ha
      obtain ⟨t, ht, htj⟩ := probe_covers m.capacity (get_index m k) j (by omega)
      obtain ⟨nd, hnd, hrej⟩ := hall t ht
      simp only at hnd
      rw [htj] at hnd
      obtain ⟨_, hget⟩ := List.getElem?_eq_some.mp hnd
      have : nd = a := by rw [← hget, hja]
      subst this
      simp only [slot_accepts, Bool.or_eq_false_iff] at hrej
      simp [hrej.1.1]
    omega

theorem put_seq_fills :
    ∀ (kvs : List (map_key_t × map_val_t)) (m : hashmap_t) (keys : List map_key_t),
      fill_invariant m keys → m.size + kvs.length ≤ m.capacity →
      2 * m.capacity ≤ INT_MAX + 1 →
      (∀ kv ∈ kvs, key_nonempty kv.1 ∧ val_nonempty kv.2) →
      kvs.Pairwise (fun a b => ¬ keys_equal a.1 b.1) →
      (∀ kv ∈ kvs, ∀ k' ∈ keys, ¬ keys_equal kv.1 k') →
      ∃ m', put_seq m kvs = .returns (List.replicate kvs.length true, m') ∧
        m'.size = m.size + kvs.length := by
  intro kvs
  induction kvs with
  | nil =>
    intro m keys _ _ _ _ _ _
    exact ⟨m, rfl, rfl⟩
  | cons kv rest ih =>
    intro m keys hfill hroom hfit hne hpair hnew
    simp only [List.length_cons] at hroom
    obtain ⟨hhead, htail⟩ := List.pairwise_cons.mp hpair
    obtain ⟨hk, hv⟩ := hne kv (List.mem_cons_self _ _)
    obtain ⟨m1, hput, hsize1, hfill1⟩ := put_fresh_key hfill (by omega) hfit hk hv
      (hnew kv (List.mem_cons_self _ _))
    have hcap1 : m1.capacity = m.capacity := by
      rcases put_returns_cases hfill.1 hput with
        ⟨hb, _⟩ | ⟨_, _, _, _, _, _, _, _, hc, _⟩ | ⟨_, _, _, _, _, _, _, _, _, _, _, _, _, hc, _⟩
      · exact absurd hb (by simp)
      · exact hc
      · exact hc
    obtain ⟨m2, hseq, hsize2⟩ := ih m1 (kv.1 :: keys) hfill1 (by rw [hsize1, hcap1]; omega)
      (by rw [hcap1]; exact hfit)
      (fun kv' hkv' => hne kv' (List.mem_cons_of_mem _ hkv')) htail
      (by
        intro kv' hkv' k' hk'
        rcases List.mem_cons.mp hk' with heq | hin
        · subst heq
          exact fun hke => hhead kv' hkv' (keys_equal_symm hke)
        · exact hnew kv' (List.mem_cons_of_mem _ hkv') k' hin)
    refine ⟨m2, ?_, by rw [hsize2, hsize1, List.length_cons]; omega⟩
    simp only [put_seq, hput, hseq, List.length_cons, List.replicate_succ]

theorem fill_invariant_create {capacity : Nat} {h : map_key_t → Nat}
    {d : map_key_t → map_val_t → Unit} {m : hashmap_t} (hc : capacity < UINT32_MODULUS)
    (hm : create_map capacity (some h) (some d) = some m) : fill_invariant m [] := by
  obtain ⟨hpos, hcap, hsize, hnodes, _, hlock, hinv⟩ := create_map_eq hm
  refine ⟨⟨by rw [hnodes, hcap]; simp, by rw [hcap]; exact hpos, by rw [hcap]; exact hc⟩,
    hinv, hlock, ?_, ?_⟩
  · rw [hsize, hnodes, List.countP_replicate]
    simp [node_is_empty, MAP_NODE, MAP_KEY]
  · intro nd hnd hne
    rw [hnodes] at hnd
    have := List.eq_of_mem_replicate hnd
    subst this
    simp [node_is_empty, MAP_NODE, MAP_KEY] at hne

/-- Two probe offsets below the capacity that reach the same slot are equal. -/
theorem probe_offset_unique (cap s t1 t2 : Nat) (h1 : t1 < cap) (h2 : t2 < cap)
    (h : (s + t1) % cap = (s + t2) % cap) : t1 = t2 := by
  have hmod : t1 % cap = t2 % cap := Nat.ModEq.add_left_cancel' s h
  rwa [Nat.mod_eq_of_lt h1, Nat.mod_eq_of_lt h2] at hmod

theorem getElem?_set_cases {nodes : List map_node_t} {j0 j : Nat} {x nd : map_node_t}
    (h : (nodes.set j0 x)[j]? = some nd) :
    (j = j0 ∧ nd = x) ∨ (j ≠ j0 ∧ nodes[j]? = some nd) := by
  rw [List.getElem?_set] at h
  by_cases hj : j0 = j
  · rw [if_pos hj] at h
    by_cases hlt : j0 < nodes.length
    · rw [if_pos hlt] at h
      exact Or.inl ⟨hj.symm, (Option.some.inj h).symm⟩
    · rw [if_neg hlt] at h
      exact absurd h (by simp)
  · rw [if_neg hj] at h
    exact Or.inr ⟨fun e => hj e.symm, h⟩

theorem slot_rejects_iff {k : map_key_t} {nd : map_node_t} (h : slot_accepts k nd = false) :
    node_is_empty nd = false ∧ nd.tombstone = false ∧ key_matches k nd = false := by
  simp only [slot_accepts, Bool.or_eq_false_iff] at h
  exact ⟨h.1.1, h.1.2, h.2⟩

theorem slots_ok_place {h : map_key_t → Nat} {cap : Nat} {nodes : List map_node_t}
    {k : map_key_t} {v : map_val_t} {t0 : Nat} {nd0 : map_node_t}
    (hlen : nodes.length = cap) (hresp : hash_respects_keys h) (hok : slots_ok h cap nodes)
    (hk : key_nonempty k) (hv : val_nonempty v) (ht0 : t0 < cap)
    (hnd0 : nodes[(h k % cap + t0) % cap]? = some nd0) (hacc : slot_accepts k nd0 = true)
    (hbefore : ∀ t', t' < t0 →
      ∃ nd, nodes[(h k % cap + t') % cap]? = some nd ∧ slot_accepts k nd = false) :
    slots_ok h cap (nodes.set ((h k % cap + t0) % cap) (MAP_NODE k v false)) := by
  obtain ⟨htomb, hchain, hnodup⟩ := hok
  have hj0 : (h k % cap + t0) % cap < nodes.length := (List.getElem?_eq_some.mp hnd0).1
  have hnew_ne : node_is_empty (MAP_NODE k v false) = false := by
    have hlive := node_is_live_placed hk hv
    simp only [node_is_live, Bool.and_eq_true, Bool.not_eq_true'] at hlive
    exact hlive.1
  -- a slot that is not empty stays so
  have hmono : ∀ (idx : Nat) (nd : map_node_t), nodes[idx]? = some nd →
      node_is_empty nd = false →
      ∃ nd', (nodes.set ((h k % cap + t0) % cap) (MAP_NODE k v false))[idx]? = some nd' ∧
        node_is_empty nd' = false := by
    intro idx nd hidx hne
    by_cases he : (h k % cap + t0) % cap = idx
    · refine ⟨MAP_NODE k v false, ?_, hnew_ne⟩
      rw [List.getElem?_set, if_pos he, if_pos hj0]
    · exact ⟨nd, by rw [List.getElem?_set_ne he]; exact hidx, hne⟩
  -- the new key is equal to no key stored in another slot
  have hfresh : ∀ (j2 : Nat) (n2 : map_node_t), j2 ≠ (h k % cap + t0) % cap →
      nodes[j2]? = some n2 → node_is_empty n2 = false → ¬ keys_equal k n2.key := by
    intro j2 n2 hj2 hn2 hne2 heq
    have hj2lt : j2 < cap := by rw [← hlen]; exact (List.getElem?_eq_some.mp hn2).1
    have hhash : h k = h n2.key := hresp _ _ heq
    obtain ⟨t, ht, htj⟩ := probe_covers cap (h k % cap) j2 hj2lt
    rcases Nat.lt_trichotomy t t0 with hlt | heq' | hgt
    · obtain ⟨nd, hnd, hrej⟩ := hbefore t hlt
      rw [htj, hn2] at hnd
      have : n2 = nd := Option.some.inj hnd
      subst this
      have hkm := (slot_rejects_iff hrej).2.2
      have := (key_matches_iff k n2).mpr heq
      rw [hkm] at this
      exact absurd this (by simp)
    · subst heq'
      exact hj2 htj.symm
    · have hprev := hchain j2 n2 hn2 hne2 t ht (by rw [← hhash]; exact htj) t0 hgt
      rw [← hhash] at hprev
      obtain ⟨nd', hnd', hne'⟩ := hprev
      rw [hnd0] at hnd'
      have : nd0 = nd' := Option.some.inj hnd'
      subst this
      have htomb0 : nd0.tombstone = false := by
        have hmem : nd0 ∈ nodes := by
          obtain ⟨hlt0, hget0⟩ := List.getElem?_eq_some.mp hnd0
          rw [← hget0]; exact List.getElem_mem _
        exact htomb nd0 hmem
      have hkm : key_matches k nd0 = true := by
        simpa [slot_accepts, hne', htomb0] using hacc
      have h0 : keys_equal k nd0.key := (key_matches_iff k nd0).mp hkm
      exact hnodup _ j2 nd0 n2 (fun e => hj2 e.symm) hnd0 hn2 hne' hne2
        (keys_equal_trans (keys_equal_symm h0) heq)
  refine ⟨?_, ?_, ?_⟩
  · intro nd hmem
    rcases List.mem_or_eq_of_mem_set hmem with hold | hnew
    · exact htomb nd hold
    · subst hnew; rfl
  · intro j nd hj hne t ht htj t' ht'
    rcases getElem?_set_cases hj with ⟨hjeq, hndeq⟩ | ⟨hjne, hold⟩
    · subst hndeq
      have hkey : (MAP_NODE k v false).key = k := rfl
      rw [hkey] at htj ⊢
      have htt0 : t = t0 := probe_offset_unique cap (h k % cap) t t0 ht ht0 (by rw [htj, hjeq])
      subst htt0
      obtain ⟨nd', hnd', hrej⟩ := hbefore t' ht'
      exact hmono _ nd' hnd' (slot_rejects_iff hrej).1
    · obtain ⟨nd', hnd', hne'⟩ := hchain j nd hold hne t ht htj t' ht'
      exact hmono _ nd' hnd' hne'
  · intro j1 j2 n1 n2 hj12 h1 h2 hne1 hne2
    rcases getElem?_set_cases h1 with ⟨hj1, hn1⟩ | ⟨hj1, hold1⟩
    · rcases getElem?_set_cases h2 with ⟨hj2, _⟩ | ⟨hj2, hold2⟩
      · exact absurd (hj1.trans hj2.symm) hj12
      · subst hn1
        exact hfresh j2 n2 hj2 hold2 hne2
    · rcases getElem?_set_cases h2 with ⟨hj2, hn2⟩ | ⟨hj2, hold2⟩
      · subst hn2
        exact fun heq => hfresh j1 n1 hj1 hold1 hne1 (keys_equal_symm heq)
      · exact hnodup j1 j2 n1 n2 hj12 hold1 hold2 hne1 hne2

theorem slots_ok_all_empty {h : map_key_t → Nat} {cap : Nat} {nodes : List map_node_t}
    (htomb : ∀ nd ∈ nodes, nd.tombstone = false)
    (hempty : ∀ nd ∈ nodes, node_is_empty nd = true) : slots_ok h cap nodes := by
  have hno : ∀ (j : Nat) (nd : map_node_t), nodes[j]? = some nd →
      node_is_empty nd = false → False := by
    intro j nd hj hne
    obtain ⟨hlt, hget⟩ := List.getElem?_eq_some.mp hj
    have hmem : nd ∈ nodes := by rw [← hget]; exact List.getElem_mem _
    rw [hempty nd hmem] at hne
    exact absurd hne (by simp)
  refine ⟨htomb, ?_, ?_⟩
  · intro j nd hj hne
    exact absurd (hno j nd hj hne) id
  · intro j1 j2 n1 n2 _ h1 _ hne1
    exact absurd (hno j1 n1 h1 hne1) id

theorem unforced_invariant_create {capacity : Nat} {h : map_key_t → Nat}
    {d : map_key_t → map_val_t → Unit} {m : hashmap_t} (hc : capacity < UINT32_MODULUS)
    (hresp : hash_respects_keys h)
    (hm : create_map capacity (some h) (some d) = some m) : unforced_invariant m := by
  obtain ⟨hpos, hcap, _, hnodes, hhash, _, _⟩ := create_map_eq hm
  refine ⟨⟨by rw [hnodes, hcap]; simp, by rw [hcap]; exact hpos, by rw [hcap]; exact hc⟩,
    by rw [hhash]; exact hresp, ?_⟩
  apply slots_ok_all_empty
  · intro nd hnd
    rw [hnodes] at hnd
    rw [List.eq_of_mem_replicate hnd]
    rfl
  · intro nd hnd
    rw [hnodes] at hnd
    rw [List.eq_of_mem_replicate hnd]
    rfl

theorem unforced_invariant_put {m m' : hashmap_t} {k : map_key_t} {v : map_val_t} {f b : Bool}
    (hinv : unforced_invariant m) (hunforced : f = false ∨ m.size < m.capacity)
    (h : put m k v f = .returns (b, m')) : unforced_invariant m' := by
  obtain ⟨hwf, hresp, hok⟩ := hinv
  have hwf0 := hwf
  obtain ⟨hlen, hcap, hmax⟩ := hwf
  rcases put_returns_cases hwf0 h with
    ⟨_, hn, _, hc, hh, _⟩ | ⟨_, _, _, hfull, hf, _⟩ |
    ⟨_, hk, hv, _, _, _, t, ht, ⟨nd, hnd, hacc⟩, hbefore, hn, _, _, hc, hh, _⟩
  · exact ⟨⟨by rw [hn, hc]; exact hlen, by rw [hc]; exact hcap, by rw [hc]; exact hmax⟩,
      by rw [hh]; exact hresp, by rw [hh, hc, hn]; exact hok⟩
  · rcases hunforced with hff | hlt
    · rw [hf] at hff
      exact absurd hff (by simp)
    · omega
  · refine ⟨⟨by rw [hn, hc]; simp [hlen], by rw [hc]; exact hcap, by rw [hc]; exact hmax⟩,
      by rw [hh]; exact hresp, ?_⟩
    rw [hh, hc, hn]
    exact slots_ok_place hlen hresp hok hk hv ht hnd hacc hbefore

theorem unforced_invariant_clear_map {m m' : hashmap_t} {b : Bool}
    (hinv : unforced_invariant m) (h : clear_map m = .returns (b, m')) :
    unforced_invariant m' := by
  obtain ⟨hwf, hresp, hok⟩ := hinv
  have hwf0 := hwf
  obtain ⟨hlen, hcap, hmax⟩ := hwf
  rcases clear_map_returns_cases hwf0 h with
    ⟨_, _, hn, _, _, hc, hh, _⟩ | ⟨_, _, _, hn, _, _, hc, hh, _⟩
  · exact ⟨⟨by rw [hn, hc]; exact hlen, by rw [hc]; exact hcap, by rw [hc]; exact hmax⟩,
      by rw [hh]; exact hresp, by rw [hh, hc, hn]; exact hok⟩
  · refine ⟨⟨by rw [hn, hc]; simp [hlen], by rw [hc]; exact hcap, by rw [hc]; exact hmax⟩,
      by rw [hh]; exact hresp, ?_⟩
    rw [hn]
    apply slots_ok_all_empty
    · intro nd hnd
      obtain ⟨nd0, hnd0, hEq⟩ := List.mem_map.mp hnd
      subst hEq
      exact hok.1 nd0 hnd0
    · intro nd hnd
      obtain ⟨nd0, _, hEq⟩ := List.mem_map.mp hnd
      subst hEq
      simp [clear_node, node_is_empty, MAP_KEY]

theorem reachable_unforced_invariant {m : hashmap_t} (h : ReachableUnforced m) :
    unforced_invariant m := by
  induction h with
  | create capacity hf d m hc hresp hm => exact unforced_invariant_create hc hresp hm
  | put m key val force b m' _ hun hput ih => exact unforced_invariant_put ih hun hput
  | clear_map m b m' _ hcl ih => exact unforced_invariant_clear_map ih hcl

/-! The claims about the store, in order. -/

/-- C1: `get` called right after a `put` that returned true does not always
return the value put. In a store of capacity 2 whose hash sends both keys
to index 1, `put` of key A and then of key B both return true (B is placed
at slot 0 after the probe wraps), yet the `get` of B that follows returns no
value: its second iteration reads `nodes[2]`, outside the array. -/
theorem put_then_get_reads_out_of_bounds :
    ∃ m0 m1 m2, create_map 2 (some (hash_const 1)) (some destroy_hook) = some m0 ∧
      put m0 key_a val_1 false = .returns (true, m1) ∧
      put m1 key_b val_2 false = .returns (true, m2) ∧
      get m2 key_b = .out_of_bounds ∧ get m2 key_b ≠ .returns val_2 :=
  ⟨_, _, _, rfl, rfl, rfl, rfl, by decide⟩

/-- C2: `get` called right after `delete` of the same key does not always
return the none value. In a store of capacity 3 whose hash sends every key to index 0, the calls put A, put B,
delete A, put B leave key B live in slots 0 and 1 (the second `put` of B
lands on the tombstone of A without looking further); `delete` of B then
tombstones slot 0 only and `get` of B returns the older value from slot 1.
In a store of capacity 2 whose hash sends the key to index 1, `get` after
`delete` reads `nodes[2]`, outside the array. -/
theorem delete_then_get_not_none :
    (∃ m0 m1 m2 m3 m4 m5 n3 n5,
      create_map 3 (some (hash_const 0)) (some destroy_hook) = some m0 ∧
      put m0 key_a val_1 false = .returns (true, m1) ∧
      put m1 key_b val_1 false = .returns (true, m2) ∧
      delete m2 key_a = .returns (n3, m3) ∧
      put m3 key_b val_2 false = .returns (true, m4) ∧
      delete m4 key_b = .returns (n5, m5) ∧
      get m5 key_b = .returns val_1 ∧ get m5 key_b ≠ .returns (MAP_VAL none 0)) ∧
    (∃ m0 m1 m2 n2,
      create_map 2 (some (hash_const 1)) (some destroy_hook) = some m0 ∧
      put m0 key_a val_1 false = .returns (true, m1) ∧
      delete m1 key_a = .returns (n2, m2) ∧
      get m2 key_a = .out_of_bounds) :=
  ⟨⟨_, _, _, _, _, _, _, _, rfl, rfl, rfl, rfl, rfl, rfl, rfl, by decide⟩,
   ⟨_, _, _, _, rfl, rfl, rfl, rfl⟩⟩

/-- C3, as stated, fails: a reachable store can hold one key live in two
slots. In the full store of capacity 2 with A in slot 0 and B in slot 1
(every hash is 0), the forced `put` of B overwrites slot 0 and B is live in
both slots. The same store is reached without force: `delete` of A
tombstones slot 0 and the next `put` of B lands on that tombstone although
B is live in slot 1. With a hash that reads bytes beyond `key_len`, two
equal keys are placed in two slots by two plain calls of `put`. -/
theorem duplicate_live_keys_reachable :
    (Reachable store_duplicate_key ∧ ¬ live_keys_unique store_duplicate_key) ∧
    (Reachable store_two_keys ∧
      put store_two_keys key_b val_1 true = .returns (true, store_duplicate_key)) ∧
    (∃ n m3, delete store_two_keys key_a = .returns (n, m3) ∧
      put m3 key_b val_1 false = .returns (true, store_duplicate_key)) ∧
    (∃ m0 m1 m2, create_map 2 (some hash_whole_buffer) (some destroy_hook) = some m0 ∧
      put m0 key_a val_1 false = .returns (true, m1) ∧
      put m1 key_a_wide val_2 false = .returns (true, m2) ∧
      keys_equal key_a key_a_wide ∧
      m2.nodes = [MAP_NODE key_a_wide val_2 false, MAP_NODE key_a val_1 false] ∧
      ¬ live_keys_unique m2) :=
  have h2 : Reachable store_two_keys :=
    Reachable.put store_one_key key_b val_2 false true store_two_keys
      (Reachable.put (store_fresh 0) key_a val_1 false true store_one_key
        (Reachable.create 2 (hash_const 0) destroy_hook (store_fresh 0) (by decide) rfl) rfl)
      rfl
  ⟨⟨Reachable.put store_two_keys key_b val_1 true true store_duplicate_key h2 rfl,
      fun hu => hu 0 1 (MAP_NODE key_b val_1 false) (MAP_NODE key_b val_2 false)
        (by decide) rfl rfl rfl rfl ⟨rfl, rfl⟩⟩,
    ⟨h2, rfl⟩,
    ⟨_, _, rfl, rfl⟩,
    ⟨_, _, _, rfl, rfl, rfl, by decide, rfl,
      fun hu => hu 0 1 (MAP_NODE key_a_wide val_2 false) (MAP_NODE key_a val_1 false)
        (by decide) rfl rfl rfl rfl (by decide)⟩⟩

/-- C3, amended: in every store state reachable from `create_map`, with a
hash function that depends only on the bytes of the key, by calls of
`clear_map` and calls of `put` that do not take the forced overwrite of a
full store (force = false or size < capacity), and no call of `delete`, no
two distinct slots are both live with equal keys. -/
theorem live_keys_unique_unforced (m : hashmap_t) (h : ReachableUnforced m) :
    live_keys_unique m := by
  obtain ⟨_, _, _, _, hnodup⟩ := reachable_unforced_invariant h
  intro j1 j2 n1 n2 hj h1 h2 hl1 hl2
  have e1 : node_is_empty n1 = false := by
    simp only [node_is_live, Bool.and_eq_true, Bool.not_eq_true'] at hl1
    exact hl1.1
  have e2 : node_is_empty n2 = false := by
    simp only [node_is_live, Bool.and_eq_true, Bool.not_eq_true'] at hl2
    exact hl2.1
  exact hnodup j1 j2 n1 n2 hj h1 h2 e1 e2

/-- C3, amended, at the store of capacity 2 that holds A and B. -/
theorem live_keys_unique_unforced_witness :
    ReachableUnforced store_two_keys ∧ live_keys_unique store_two_keys :=
  have hr : ReachableUnforced store_two_keys :=
    ReachableUnforced.put store_one_key key_b val_2 false true store_two_keys
      (ReachableUnforced.put (store_fresh 0) key_a val_1 false true store_one_key
        (ReachableUnforced.create 2 (hash_const 0) destroy_hook (store_fresh 0) (by decide)
          (fun _ _ _ => rfl) rfl)
        (Or.inl rfl) rfl)
      (Or.inl rfl) rfl
  ⟨hr, live_keys_unique_unforced store_two_keys hr⟩

/-- C4: a `put` that replaces the value of a live key in a store that is
not full changes the size counter. In a
fresh store of capacity 2, after `put` of key A the size is 1 and the
store is not full; a second `put` of key A with another value returns true,
replaces the value in slot 0 and leaves the size at 2 (line 139 increments
it), with a single live entry. -/
theorem replace_increments_size :
    ∃ m0 m1 m2, create_map 2 (some (hash_const 0)) (some destroy_hook) = some m0 ∧
      put m0 key_a val_1 false = .returns (true, m1) ∧
      m1.size = 1 ∧ m1.size < m1.capacity ∧ get m1 key_a = .returns val_1 ∧
      put m1 key_a val_2 false = .returns (true, m2) ∧
      get m2 key_a = .returns val_2 ∧ live_count m2 = 1 ∧
      m2.size = 2 ∧ m2.size ≠ m1.size :=
  ⟨_, _, _, rfl, rfl, rfl, by decide, rfl, rfl, rfl, rfl, rfl, by decide⟩

/-! The size counter after a `delete` that reads past the slot array. -/

/-- A probe that stays inside the slot array is the same with and without
the bounds check. -/
theorem probe_loop_unchecked_eq (beyond : Nat → Bool) (m : hashmap_t) (k : map_key_t) :
    ∀ (n i : Nat) (r : Option Nat), probe_loop m k i n = some r →
      probe_loop_unchecked beyond m k i n = some r := by
  intro n
  induction n with
  | zero =>
    intro i r h
    simpa [probe_loop, probe_loop_unchecked] using h
  | succ n ih =>
    intro i r h
    simp only [probe_loop] at h
    simp only [probe_loop_unchecked]
    cases hi : m.nodes[i]? with
    | none => rw [hi] at h; simp at h
    | some node_i =>
      rw [hi] at h
      dsimp only at h ⊢
      by_cases htomb : (node_i.tombstone == false) = true
      · rw [if_pos htomb] at h ⊢
        cases hm : m.nodes[i % m.capacity]? with
        | none => rw [hm] at h; simp at h
        | some myMapNode =>
          rw [hm] at h
          dsimp only at h ⊢
          by_cases hkey : key_matches k myMapNode = true
          · rw [if_pos hkey] at h ⊢
            exact h
          · rw [if_neg hkey] at h ⊢
            exact ih (i + 1) r h
      · rw [if_neg htomb] at h ⊢
        exact ih (i + 1) r h

/-- Whenever `delete` returns without reading outside the slot array,
`delete_unchecked` returns the same node and store. -/
theorem delete_unchecked_eq (beyond : Nat → Bool) {m : hashmap_t} {k : map_key_t}
    {r : map_node_t × hashmap_t} (h : delete m k = .returns r) :
    delete_unchecked beyond m k = .returns r := by
  unfold delete at h
  unfold delete_unchecked
  by_cases hg : (k.key_base.isNone || k.key_len == 0 || m.invalid) = true
  · rw [if_pos hg] at h ⊢
    exact h
  · rw [if_neg hg] at h ⊢
    by_cases hl : m.write_lock = true
    · rw [if_pos hl] at h
      exact absurd h (by simp)
    · rw [if_neg hl] at h ⊢
      cases hp : probe_loop m k (get_index m k) m.capacity with
      | none => rw [hp] at h; exact absurd h (by simp)
      | some found =>
        rw [hp] at h
        rw [probe_loop_unchecked_eq beyond m k m.capacity (get_index m k) found hp]
        exact h

/-- C5: the size counter does not stay within 0 <= size <= capacity. In a
store of capacity 2 whose hash sends both keys to index 1, `put` of key A
and of key B places B in slot 0 after the probe wraps, and size is 2. Every
`delete` of B passes slot 1 and then tests `nodes[2].tombstone` (line 238),
outside the array. Where that read goes through and finds a zero byte, the
call matches the key in slot 0 whether or not that slot is already
tombstoned, and runs `self->size--` (line 251): the first call leaves size
1, the second leaves size 0 with key A still live, and the third wraps the
unsigned counter to 4294967295, above the capacity. -/
theorem delete_wraps_size :
    ∃ m0 m1 m2 m3 m4 m5 n3 n4 n5,
      create_map 2 (some (hash_const 1)) (some destroy_hook) = some m0 ∧
      put m0 key_a val_1 false = .returns (true, m1) ∧
      put m1 key_b val_2 false = .returns (true, m2) ∧ m2.size = 2 ∧
      delete m2 key_b = .out_of_bounds ∧
      delete_unchecked (fun _ => false) m2 key_b = .returns (n3, m3) ∧ m3.size = 1 ∧
      delete_unchecked (fun _ => false) m3 key_b = .returns (n4, m4) ∧ m4.size = 0 ∧
      live_count m4 = 1 ∧
      delete_unchecked (fun _ => false) m4 key_b = .returns (n5, m5) ∧
      m5.size = 4294967295 ∧ m5.capacity = 2 ∧ ¬ (m5.size ≤ m5.capacity) :=
  ⟨_, _, _, _, _, _, _, _, _, rfl, rfl, rfl, rfl, rfl, rfl, rfl, rfl, rfl, rfl, rfl, rfl, rfl,
    by decide⟩

/-- Starting from the store that `create_map` returns for a capacity C
whose double fits the C `int`, every sequence of n <= C calls of `put` with
force = false, pairwise distinct non-empty keys and non-empty values returns
true at every call, and afterwards size equals n. -/
theorem distinct_puts_all_succeed (C : Nat) (h : map_key_t → Nat)
    (d : map_key_t → map_val_t → Unit) (m0 : hashmap_t) (kvs : List (map_key_t × map_val_t))
    (hC : 2 * C ≤ INT_MAX + 1) (hm : create_map C (some h) (some d) = some m0)
    (hn : kvs.length ≤ C)
    (hne : ∀ kv ∈ kvs, key_nonempty kv.1 ∧ val_nonempty kv.2)
    (hdistinct : kvs.Pairwise (fun a b => ¬ keys_equal a.1 b.1)) :
    ∃ m, put_seq m0 kvs = .returns (List.replicate kvs.length true, m) ∧
      m.size = kvs.length := by
  have hC' : C < UINT32_MODULUS := by
    simp only [INT_MAX, UINT32_MODULUS] at hC ⊢
    omega
  have hfill := fill_invariant_create hC' hm
  obtain ⟨_, hcap, hsize, _⟩ := create_map_eq hm
  obtain ⟨m, hseq, hsz⟩ := put_seq_fills kvs m0 [] hfill (by rw [hsize, hcap]; omega)
    (by rw [hcap]; exact hC) hne hdistinct (fun _ _ _ hk' => absurd hk' (List.not_mem_nil _))
  exact ⟨m, hseq, by rw [hsz, hsize]; omega⟩

/-- C7: whenever `put` returns false (empty or NULL key or value,
invalidated store, size >= capacity with force = false, or a probe that
finds no slot), the slots, the size counter, the invalid flag and the
capacity of the store are exactly what they were before the call. -/
theorem failed_put_leaves_store (self : hashmap_t) (key : map_key_t) (val : map_val_t)
    (force : Bool) (m' : hashmap_t) (h : put self key val force = .returns (false, m')) :
    m'.nodes = self.nodes ∧ m'.size = self.size ∧ m'.invalid = self.invalid ∧
      m'.capacity = self.capacity := by
  unfold put at h
  split at h
  · simp only [Outcome.returns.injEq, Prod.mk.injEq, true_and] at h
    subst h
    exact ⟨rfl, rfl, rfl, rfl⟩
  · split at h
    · exact absurd h (by simp)
    · simp only at h
      split at h
      · simp only [Outcome.returns.injEq, Prod.mk.injEq, true_and] at h
        subst h
        exact ⟨rfl, rfl, rfl, rfl⟩
      · split at h
        · split at h
          · simp at h
          · exact absurd h (by simp)
        · split at h
          · exact absurd h (by simp)
          · rename_i r hloop
            simp only [Outcome.returns.injEq] at h
            subst h
            have := put_loop_false _ key val _ _ m' hloop
            subst this
            exact ⟨rfl, rfl, rfl, rfl⟩

/-- C7 at a full store of capacity 2: `put` without force returns false
and the slots, size and flags are kept. -/
theorem failed_put_leaves_store_witness :
    put store_two_keys key_a val_2 false = .returns (false, store_two_keys_locked) ∧
      store_two_keys_locked.nodes = store_two_keys.nodes ∧
      store_two_keys_locked.size = store_two_keys.size ∧
      store_two_keys_locked.invalid = store_two_keys.invalid ∧
      store_two_keys_locked.capacity = store_two_keys.capacity :=
  ⟨rfl, failed_put_leaves_store store_two_keys key_a val_2 false store_two_keys_locked rfl⟩

/-- On a valid, unlocked store whose slot array has capacity > 0 entries
and whose capacity fits the C `int`, when size >= capacity, `put` of a
non-empty key K and value V with force = true returns true, sets the slot at
index h(K) mod capacity to the live entry (K, V) with the tombstone flag
cleared, leaves the size counter unchanged, and leaves every other slot
unchanged. -/
theorem forced_put_overwrites_home_slot (self : hashmap_t) (key : map_key_t) (val : map_val_t)
    (hlen : self.nodes.length = self.capacity) (hcap : 0 < self.capacity)
    (hk : key_nonempty key) (hv : val_nonempty val)
    (hinv : self.invalid = false) (hlock : self.write_lock = false)
    (hfull : self.size ≥ self.capacity) (hfit : self.capacity ≤ INT_MAX + 1) :
    ∃ m', put self key val true = .returns (true, m') ∧
      m'.nodes[self.hash_function key % self.capacity]? = some (MAP_NODE key val false) ∧
      node_is_live (MAP_NODE key val false) = true ∧
      m'.size = self.size ∧
      (∀ j : Nat, j ≠ self.hash_function key % self.capacity → m'.nodes[j]? = self.nodes[j]?) ∧
      m'.capacity = self.capacity ∧ m'.invalid = self.invalid := by
  have hidx : get_index self key < self.nodes.length := by
    rw [hlen]
    exact Nat.mod_lt _ hcap
  have hint : get_index self key ≤ INT_MAX := by
    have : get_index self key < self.capacity := Nat.mod_lt _ hcap
    omega
  obtain ⟨hk1, hk2⟩ := hk
  obtain ⟨hv1, hv2⟩ := hv
  have hput : put self key val true
      = .returns (true, { self with
          nodes := store_node self (get_index self key) key val, write_lock := false }) := by
    cases hkb : key.key_base with
    | none => exact absurd hkb hk1
    | some kb =>
      cases hvb : val.val_base with
      | none => exact absurd hvb hv1
      | some vb =>
        unfold put
        simp [hkb, hvb, hk2, hv2, hinv, hlock, hfull, hidx, hint]
  refine ⟨_, hput, ?_, node_is_live_placed ⟨hk1, hk2⟩ ⟨hv1, hv2⟩, rfl, ?_, rfl, rfl⟩
  · show (self.nodes.set (get_index self key) (MAP_NODE key val false))[get_index self key]? = _
    rw [List.getElem?_set, if_pos rfl, if_pos hidx]
  · intro j hj
    show (self.nodes.set (get_index self key) (MAP_NODE key val false))[j]? = _
    exact List.getElem?_set_ne (fun e => hj e.symm)

/-- C8: a `put` with force = true on a store with size >= capacity does not
always return true. The store of capacity 2 is filled by `put` of the keys A
and B; the `put` of key C with force = false then returns false at lines
83-86 with the writer lock still held. On the resulting store, which is
valid and has size = capacity = 2, the `put` of C with force = true waits
for the writer lock at line 79 and never returns, so no slot is
overwritten. -/
theorem forced_put_blocks_after_failed_put :
    ∃ m0 m1 m2 m3, create_map 2 (some (hash_const 0)) (some destroy_hook) = some m0 ∧
      put m0 key_a val_1 false = .returns (true, m1) ∧
      put m1 key_b val_2 false = .returns (true, m2) ∧
      put m2 key_c val_1 false = .returns (false, m3) ∧
      Reachable m3 ∧ m3.invalid = false ∧ m3.size ≥ m3.capacity ∧
      m3.nodes.length = m3.capacity ∧
      key_nonempty key_c ∧ val_nonempty val_1 ∧
      put m3 key_c val_1 true = .blocks ∧
      (∀ m' : hashmap_t, put m3 key_c val_1 true ≠ .returns (true, m')) :=
  ⟨_, _, _, _, rfl, rfl, rfl, rfl,
    Reachable.put _ key_c val_1 false false _
      (Reachable.put _ key_b val_2 false true _
        (Reachable.put _ key_a val_1 false true _
          (Reachable.create 2 (hash_const 0) destroy_hook _ (by decide) rfl) rfl) rfl) rfl,
    rfl, by decide, rfl, by decide, by decide, rfl, fun _ => by
      show Outcome.blocks ≠ _
      exact fun h => Outcome.noConfusion h⟩

/-- C9: `delete` of a live key does not always return its node and
tombstone its slot. In a store of capacity 2 whose hash sends both keys to index 1,
after put A and put B key B is live in slot 0 with its value; `delete` of B
reads `nodes[2]`, outside the array, in its second iteration and returns no
node. -/
theorem delete_live_key_reads_out_of_bounds :
    ∃ m0 m1 m2, create_map 2 (some (hash_const 1)) (some destroy_hook) = some m0 ∧
      put m0 key_a val_1 false = .returns (true, m1) ∧
      put m1 key_b val_2 false = .returns (true, m2) ∧
      m2.nodes[0]? = some (MAP_NODE key_b val_2 false) ∧
      node_is_live (MAP_NODE key_b val_2 false) = true ∧
      delete m2 key_b = .out_of_bounds :=
  ⟨_, _, _, rfl, rfl, rfl, rfl, rfl, rfl⟩

/-- C10: after `clear_map` has returned true, `get` does not return the
none value for every key. On a fresh
store of capacity 2, `clear_map` returns true with size 0; `get` of a key
whose hash is 1 modulo 2 scans the whole table and reads `nodes[2]`,
outside the array. -/
theorem clear_then_get_reads_out_of_bounds :
    ∃ m0 m1, create_map 2 (some (hash_const 1)) (some destroy_hook) = some m0 ∧
      clear_map m0 = .returns (true, m1) ∧ m1.size = 0 ∧
      get m1 key_a = .out_of_bounds ∧ get m1 key_a ≠ .returns (MAP_VAL none 0) :=
  ⟨_, _, rfl, rfl, rfl, rfl, by decide⟩

/-- C11: after `invalidate_map` has returned true, every later operation
fails and leaves the store as it is: `put` returns false, `get` returns the
none value, `delete` returns the empty node, `clear_map` returns false and a
second `invalidate_map` returns false. -/
theorem invalidated_store_rejects (m m' : hashmap_t)
    (h : invalidate_map m = .returns (true, m')) :
    (∀ (k : map_key_t) (v : map_val_t) (f : Bool), put m' k v f = .returns (false, m')) ∧
    (∀ k : map_key_t, get m' k = .returns (MAP_VAL none 0)) ∧
    (∀ k : map_key_t,
      delete m' k = .returns (MAP_NODE (MAP_KEY none 0) (MAP_VAL none 0) false, m')) ∧
    clear_map m' = .returns (false, m') ∧
    invalidate_map m' = .returns (false, m') := by
  have hinv : m'.invalid = true := by
    unfold invalidate_map at h
    split at h
    · simp at h
    · split at h
      · exact absurd h (by simp)
      · split at h
        · exact absurd h (by simp)
        · simp only [Outcome.returns.injEq, Prod.mk.injEq, true_and] at h
          subst h
          rfl
  refine ⟨?_, ?_, ?_, ?_, ?_⟩
  · intro k v f
    unfold put
    simp [hinv]
  · intro k
    unfold get
    simp [hinv]
  · intro k
    unfold delete
    simp [hinv]
  · unfold clear_map
    simp [hinv]
  · unfold invalidate_map
    simp [hinv]

/-- C11 at the store of capacity 2 that holds A and B. -/
theorem invalidated_store_rejects_witness :
    invalidate_map store_two_keys = .returns (true, store_invalidated) ∧
    (∀ (k : map_key_t) (v : map_val_t) (f : Bool),
      put store_invalidated k v f = .returns (false, store_invalidated)) ∧
    (∀ k : map_key_t, get store_invalidated k = .returns (MAP_VAL none 0)) ∧
    (∀ k : map_key_t, delete store_invalidated k
      = .returns (MAP_NODE (MAP_KEY none 0) (MAP_VAL none 0) false, store_invalidated)) ∧
    clear_map store_invalidated = .returns (false, store_invalidated) ∧
    invalidate_map store_invalidated = .returns (false, store_invalidated) :=
  ⟨rfl, invalidated_store_rejects store_two_keys store_invalidated rfl⟩

/-- C21: `put` does not release the writer lock on every return path. On
the reachable full store of capacity 2, entered with the lock not held,
`put` with force = false returns false at line 85 with the lock still
held, and the next call that takes the lock never returns. The return after
the probe loop (line 149) leaves the lock held as well, as a store whose two
slots are live while its size counter reads 0 shows. -/
theorem put_returns_with_lock_held :
    Reachable store_two_keys ∧ store_two_keys.write_lock = false ∧
    put store_two_keys key_a val_2 false = .returns (false, store_two_keys_locked) ∧
    store_two_keys_locked.write_lock = true ∧
    put store_two_keys_locked key_a val_2 true = .blocks ∧
    clear_map store_two_keys_locked = .blocks ∧
    store_miscounted.write_lock = false ∧
    (∃ m', put store_miscounted key_c val_1 false = .returns (false, m') ∧
      m'.write_lock = true) :=
  ⟨Reachable.put store_one_key key_b val_2 false true store_two_keys
      (Reachable.put (store_fresh 0) key_a val_1 false true store_one_key
        (Reachable.create 2 (hash_const 0) destroy_hook (store_fresh 0) (by decide) rfl) rfl)
      rfl,
    rfl, rfl, rfl, rfl, rfl, rfl, ⟨_, rfl, rfl⟩⟩

/-! The probe chain over the reachable states. -/
theorem set_keeps_nonempty {nodes : List map_node_t} {idx p : Nat} {x nd : map_node_t}
    (hx : node_is_empty x = false) (hp : nodes[p]? = some nd)
    (hnd : node_is_empty nd = false) :
    ∃ nd', (nodes.set idx x)[p]? = some nd' ∧ node_is_empty nd' = false := by
  have hlt : p < nodes.length := by
    obtain ⟨hlt, _⟩ := List.getElem?_eq_some.mp hp
    exact hlt
  by_cases hidx : idx = p
  · subst hidx
    exact ⟨x, by rw [List.getElem?_set, if_pos rfl, if_pos hlt], hx⟩
  · exact ⟨nd, by rw [List.getElem?_set_ne hidx]; exact hp, hnd⟩

/-- Storing a slot that is not empty keeps the chains of the other live
slots; the stored slot, when live, needs a chain of its own. -/
theorem chained_set {m m' : hashmap_t} {idx : Nat} {x : map_node_t}
    (hcap : m'.capacity = m.capacity) (hh : m'.hash_function = m.hash_function)
    (hn : m'.nodes = m.nodes.set idx x) (hx : node_is_empty x = false) (hc : chained m)
    (hnew : node_is_live x = true →
      ∃ j, j < m.capacity ∧ (get_index m x.key + j) % m.capacity = idx ∧
        ∀ j', j' < j →
          ∃ nd', m.nodes[(get_index m x.key + j') % m.capacity]? = some nd' ∧
            node_is_empty nd' = false) :
    chained m' := by
  have hidx : ∀ k, get_index m' k = get_index m k := by
    intro k
    unfold get_index
    rw [hh, hcap]
  intro i nd hi hlive
  rw [hn] at hi
  rw [hidx, hcap, hn]
  rcases getElem?_set_cases hi with ⟨hij, hndx⟩ | ⟨_, hold⟩
  · subst hndx
    obtain ⟨j, hj, hpos, hbefore⟩ := hnew hlive
    refine ⟨j, hj, by rw [hpos, hij], ?_⟩
    intro j' hj'
    obtain ⟨nd', hnd', hne⟩ := hbefore j' hj'
    exact set_keeps_nonempty hx hnd' hne
  · obtain ⟨j, hj, hpos, hbefore⟩ := hc i nd hold hlive
    refine ⟨j, hj, hpos, ?_⟩
    intro j' hj'
    obtain ⟨nd', hnd', hne⟩ := hbefore j' hj'
    exact set_keeps_nonempty hx hnd' hne

theorem chained_same {m m' : hashmap_t} (hn : m'.nodes = m.nodes) (hf : same_frame m m')
    (hc : chained m) : chained m' := by
  obtain ⟨hcap, hh, _⟩ := hf
  have hidx : ∀ k, get_index m' k = get_index m k := by
    intro k
    unfold get_index
    rw [hh, hcap]
  intro i nd hi hlive
  rw [hn] at hi
  rw [hidx, hcap, hn]
  exact hc i nd hi hlive

theorem node_is_empty_placed {k : map_key_t} {v : map_val_t} (hk : key_nonempty k)
    (hv : val_nonempty v) : node_is_empty (MAP_NODE k v false) = false := by
  have := node_is_live_placed hk hv
  simp only [node_is_live, Bool.and_eq_true, Bool.not_eq_true'] at this
  exact this.1

theorem chained_create {capacity : Nat} {h : map_key_t → Nat}
    {d : map_key_t → map_val_t → Unit} {m : hashmap_t}
    (hm : create_map capacity (some h) (some d) = some m) : chained m := by
  obtain ⟨_, _, _, hnodes, _, _, _⟩ := create_map_eq hm
  intro i nd hi hlive
  rw [hnodes] at hi
  have hmem : nd ∈ List.replicate capacity (MAP_NODE (MAP_KEY none 0) (MAP_VAL none 0) false) := by
    obtain ⟨hlt, hget⟩ := List.getElem?_eq_some.mp hi
    rw [← hget]
    exact List.getElem_mem hlt
  rw [List.mem_replicate] at hmem
  rw [hmem.2] at hlive
  simp [node_is_live, node_is_empty, MAP_NODE, MAP_KEY] at hlive

theorem chained_put {m m' : hashmap_t} {k : map_key_t} {v : map_val_t} {f b : Bool}
    (hwf : well_formed m) (hc : chained m) (h : put m k v f = .returns (b, m')) :
    chained m' := by
  rcases put_returns_cases hwf h with
    ⟨_, hn, _, hf⟩ | ⟨_, hk, hv, _, _, hn, _, _, hf⟩ |
    ⟨_, hk, hv, _, _, _, t, ht, _, hrej, hn, _, _, hf⟩
  · exact chained_same hn hf hc
  · refine chained_set hf.1 hf.2.1 hn (node_is_empty_placed hk hv) hc ?_
    intro _
    refine ⟨0, hwf.2.1, ?_, fun j' hj' => absurd hj' (Nat.not_lt_zero _)⟩
    simp only [MAP_NODE, get_index, Nat.add_zero, Nat.mod_mod]
  · refine chained_set hf.1 hf.2.1 hn (node_is_empty_placed hk hv) hc ?_
    intro _
    refine ⟨t, ht, by simp only [MAP_NODE], ?_⟩
    intro j' hj'
    obtain ⟨nd', hnd', hr⟩ := hrej j' hj'
    exact ⟨nd', by simpa only [MAP_NODE] using hnd', (slot_rejects_iff hr).1⟩

theorem chained_delete {m m' : hashmap_t} {k : map_key_t} {n : map_node_t}
    (hwf : well_formed m) (hc : chained m) (h : delete m k = .returns (n, m')) :
    chained m' := by
  rcases delete_returns_cases hwf h with
    ⟨hn, _, _, hf⟩ | ⟨j, nd, _, hlive, _, _, _, hn, _, _, hf⟩
  · exact chained_same hn hf hc
  · refine chained_set hf.1 hf.2.1 hn ?_ hc ?_
    · simp only [node_is_live, Bool.and_eq_true, Bool.not_eq_true'] at hlive
      simpa [node_is_empty] using hlive.1
    · intro hl
      rw [node_is_live_tombstoned] at hl
      exact absurd hl (by simp)

theorem chained_clear_map {m m' : hashmap_t} {b : Bool}
    (hwf : well_formed m) (hc : chained m) (h : clear_map m = .returns (b, m')) :
    chained m' := by
  rcases clear_map_returns_cases hwf h with
    ⟨_, _, hn, _, _, hf⟩ | ⟨_, _, _, hn, _, _, _⟩
  · exact chained_same hn hf hc
  · intro i nd hi hlive
    rw [hn, List.getElem?_map] at hi
    cases hold : m.nodes[i]? with
    | none => rw [hold] at hi; simp at hi
    | some old =>
      rw [hold] at hi
      simp only [Option.map_some', Option.some.injEq] at hi
      rw [← hi, node_is_live_clear_node] at hlive
      exact absurd hlive (by simp)

/-- Every reachable store keeps each live entry on the probe chain of its
key. -/
theorem reachable_chained {m : hashmap_t} (h : Reachable m) : chained m := by
  induction h with
  | create capacity hf d m hc hm => exact chained_create hm
  | put m key val force b m' hr hput ih =>
    exact chained_put (reachable_size_invariant hr).1 ih hput
  | delete m key n m' hr hdel ih =>
    exact chained_delete (reachable_size_invariant hr).1 ih hdel
  | clear_map m b m' hr hcl ih =>
    exact chained_clear_map (reachable_size_invariant hr).1 ih hcl

/-! The shape of the slots over the reachable states. -/
theorem slots_shaped_set {m m' : hashmap_t} {idx : Nat} {x : map_node_t}
    (hn : m'.nodes = m.nodes.set idx x) (hx : node_is_empty x = false)
    (hs : slots_shaped m) : slots_shaped m' := by
  intro nd hmem hempty
  rw [hn] at hmem
  rcases List.mem_or_eq_of_mem_set hmem with hold | hnew
  · exact hs nd hold hempty
  · rw [hnew, hx] at hempty
    exact absurd hempty (by simp)

theorem slots_shaped_same {m m' : hashmap_t} (hn : m'.nodes = m.nodes)
    (hs : slots_shaped m) : slots_shaped m' := by
  intro nd hmem hempty
  rw [hn] at hmem
  exact hs nd hmem hempty

theorem reachable_slots_shaped {m : hashmap_t} (h : Reachable m) : slots_shaped m := by
  induction h with
  | create capacity hf d m hc hm =>
    obtain ⟨_, _, _, hnodes, _, _, _⟩ := create_map_eq hm
    intro nd hmem _
    rw [hnodes] at hmem
    rw [List.eq_of_mem_replicate hmem]
    rfl
  | put m key val force b m' hr hput ih =>
    rcases put_returns_cases (reachable_size_invariant hr).1 hput with
      ⟨_, hn, _, _⟩ | ⟨_, hk, hv, _, _, hn, _, _, _⟩ |
      ⟨_, hk, hv, _, _, _, t, _, _, _, hn, _, _, _⟩
    · exact slots_shaped_same hn ih
    · exact slots_shaped_set hn (node_is_empty_placed hk hv) ih
    · exact slots_shaped_set hn (node_is_empty_placed hk hv) ih
  | delete m key n m' hr hdel ih =>
    rcases delete_returns_cases (reachable_size_invariant hr).1 hdel with
      ⟨hn, _, _, _⟩ | ⟨j, nd, _, hlive, _, _, _, hn, _, _, _⟩
    · exact slots_shaped_same hn ih
    · refine slots_shaped_set hn ?_ ih
      simp only [node_is_live, Bool.and_eq_true, Bool.not_eq_true'] at hlive
      simpa [node_is_empty] using hlive.1
  | clear_map m b m' hr hcl ih =>
    rcases clear_map_returns_cases (reachable_size_invariant hr).1 hcl with
      ⟨_, _, hn, _, _, _⟩ | ⟨_, _, _, hn, _, _, _⟩
    · exact slots_shaped_same hn ih
    · intro nd hmem _
      rw [hn, List.mem_map] at hmem
      obtain ⟨old, _, hold⟩ := hmem
      rw [← hold]
      rfl

/-! The full scan of `get` against the lookup that ends at the first empty slot. -/
theorem probe_loop_position (m : hashmap_t) (k : map_key_t)
    (hlen : m.nodes.length = m.capacity) :
    ∀ (n i j : Nat), probe_loop m k i n = some (some j) →
      ∃ t, t < n ∧ j = i + t ∧
        ∃ nd, m.nodes[i + t]? = some nd ∧ nd.tombstone = false ∧ key_matches k nd = true := by
  intro n
  induction n with
  | zero =>
    intro i j h
    simp [probe_loop] at h
  | succ n ih =>
    intro i j h
    simp only [probe_loop] at h
    cases hi : m.nodes[i]? with
    | none => rw [hi] at h; simp at h
    | some node_i =>
      rw [hi] at h
      have hlt : i < m.capacity := by
        rw [← hlen]
        exact (List.getElem?_eq_some.mp hi).1
      have hmod : i % m.capacity = i := Nat.mod_eq_of_lt hlt
      rw [hmod, hi] at h
      by_cases htomb : node_i.tombstone = false
      · by_cases hkey : key_matches k node_i = true
        · simp only [htomb, hkey, beq_self_eq_true, if_true, Option.some.injEq] at h
          subst h
          exact ⟨0, Nat.succ_pos n, rfl, node_i, hi, htomb, hkey⟩
        · simp only [htomb, hkey, beq_self_eq_true, if_true] at h
          obtain ⟨t, ht, hj, nd, hnd, hrest⟩ := ih (i + 1) j h
          have harith : i + 1 + t = i + (t + 1) := by omega
          rw [harith] at hj hnd
          exact ⟨t + 1, by omega, hj, nd, hnd, hrest⟩
      · have htomb' : node_i.tombstone = true := by simpa using htomb
        simp only [htomb'] at h
        obtain ⟨t, ht, hj, nd, hnd, hrest⟩ := ih (i + 1) j h
        have harith : i + 1 + t = i + (t + 1) := by omega
        rw [harith] at hj hnd
        exact ⟨t + 1, by omega, hj, nd, hnd, hrest⟩

/-- When every matching slot that the scan can reach is preceded by slots
that are not empty, a scan that stays inside the slot array and the lookup
that ends at the first empty slot give the same result. -/
theorem lookup_loop_agrees (m : hashmap_t) (k : map_key_t)
    (hlen : m.nodes.length = m.capacity) :
    ∀ (n i : Nat) (r : Option Nat),
      (∀ (t : Nat) (nd : map_node_t), t < n → m.nodes[i + t]? = some nd →
        nd.tombstone = false → key_matches k nd = true →
        ∀ t', t' ≤ t → ∃ nd', m.nodes[i + t']? = some nd' ∧ node_is_empty nd' = false) →
      probe_loop m k i n = some r → lookup_until_empty_loop m k i n = some r := by
  intro n
  induction n with
  | zero =>
    intro i r _ h
    simp only [probe_loop] at h
    simp only [lookup_until_empty_loop]
    exact h
  | succ n ih =>
    intro i r hchain h
    simp only [probe_loop] at h
    cases hi : m.nodes[i]? with
    | none => rw [hi] at h; simp at h
    | some node_i =>
      rw [hi] at h
      have hlt : i < m.capacity := by
        rw [← hlen]
        exact (List.getElem?_eq_some.mp hi).1
      have hmod : i % m.capacity = i := Nat.mod_eq_of_lt hlt
      rw [hmod, hi] at h
      simp only [lookup_until_empty_loop]
      rw [hmod, hi]
      dsimp only
      have hshift : ∀ (t : Nat) (nd : map_node_t), t < n → m.nodes[i + 1 + t]? = some nd →
          nd.tombstone = false → key_matches k nd = true →
          ∀ t', t' ≤ t →
            ∃ nd', m.nodes[i + 1 + t']? = some nd' ∧ node_is_empty nd' = false := by
        intro t nd ht hnd htb hkm t' ht'
        have harith : i + 1 + t = i + (t + 1) := by omega
        have harith' : i + 1 + t' = i + (t' + 1) := by omega
        rw [harith] at hnd
        rw [harith']
        exact hchain (t + 1) nd (by omega) hnd htb hkm (t' + 1) (by omega)
      by_cases hfound : node_i.tombstone = false ∧ key_matches k node_i = true
      · obtain ⟨htomb, hkey⟩ := hfound
        simp only [htomb, hkey, beq_self_eq_true, if_true] at h
        obtain ⟨nd', hnd', hne⟩ := hchain 0 node_i (Nat.succ_pos n) hi htomb hkey 0 (Nat.le_refl 0)
        rw [Nat.add_zero, hi] at hnd'
        rw [← Option.some.inj hnd'] at hne
        simp only [hne, htomb, hkey, beq_self_eq_true, Bool.and_self, if_true,
          Bool.false_eq_true, if_false]
        exact h
      · have hnext : probe_loop m k (i + 1) n = some r := by
          by_cases htomb : node_i.tombstone = false
          · have hkey : ¬ key_matches k node_i = true := fun hk => hfound ⟨htomb, hk⟩
            simpa only [htomb, hkey, beq_self_eq_true, if_true, if_false] using h
          · have htomb' : node_i.tombstone = true := by simpa using htomb
            simpa only [htomb'] using h
        have hnot : (node_i.tombstone == false && key_matches k node_i) = false := by
          by_cases htomb : node_i.tombstone = false
          · have hkey : key_matches k node_i = false := by
              cases hk : key_matches k node_i with
              | false => rfl
              | true => exact absurd ⟨htomb, hk⟩ hfound
            simp [htomb, hkey]
          · have htomb' : node_i.tombstone = true := by simpa using htomb
            simp [htomb']
        by_cases hempty : node_is_empty node_i = true
        · rw [if_pos hempty]
          cases r with
          | none => rfl
          | some j =>
            obtain ⟨t, ht, _, nd, hnd, htb, hkm⟩ := probe_loop_position m k hlen n (i + 1) j hnext
            have harith : i + 1 + t = i + (t + 1) := by omega
            rw [harith] at hnd
            obtain ⟨nd', hnd', hne⟩ := hchain (t + 1) nd (by omega) hnd htb hkm 0 (Nat.zero_le _)
            rw [Nat.add_zero, hi] at hnd'
            rw [← Option.some.inj hnd', hempty] at hne
            exact absurd hne (by simp)
        · rw [if_neg hempty, hnot]
          simp only [Bool.false_eq_true, if_false]
          exact ih (i + 1) r hshift hnext

/-- For the calls of `get` that stay inside the slot array: on a reachable
store whose hash function depends only on the bytes of the key, whenever the
full scan of `get` returns, the lookup that ends at the first empty slot
returns the same value. -/
theorem lookup_until_empty_agrees {m : hashmap_t} {K : map_key_t} {v : map_val_t}
    (hr : Reachable m) (hh : hash_respects_keys m.hash_function)
    (hget : get m K = .returns v) : lookup_until_empty m K = .returns v := by
  have hwf := (reachable_size_invariant hr).1
  have hc := reachable_chained hr
  have hs := reachable_slots_shaped hr
  obtain ⟨hlen, hcap, _⟩ := hwf
  unfold get at hget
  unfold lookup_until_empty
  by_cases hg : (K.key_len == 0 || m.invalid) = true
  · rw [if_pos hg] at hget ⊢
    exact hget
  · rw [if_neg hg] at hget ⊢
    by_cases hl : m.write_lock = true
    · rw [if_pos hl] at hget
      exact absurd hget (by simp)
    · rw [if_neg hl] at hget ⊢
      have hklen : K.key_len ≠ 0 := by
        intro h0
        apply hg
        simp [h0]
      cases hp : probe_loop m K (get_index m K) m.capacity with
      | none => rw [hp] at hget; exact absurd hget (by simp)
      | some r =>
        rw [hp] at hget
        have hagree : lookup_until_empty_loop m K (get_index m K) m.capacity = some r := by
          refine lookup_loop_agrees m K hlen m.capacity (get_index m K) r ?_ hp
          intro t nd ht hnd htb hkm t' ht'
          have hlt : get_index m K + t < m.capacity := by
            rw [← hlen]
            exact (List.getElem?_eq_some.mp hnd).1
          have hke : keys_equal K nd.key := (key_matches_iff K nd).mp hkm
          have hne : node_is_empty nd = false := by
            cases he : node_is_empty nd with
            | false => rfl
            | true =>
              have hmem : nd ∈ m.nodes := by
                obtain ⟨hlt', hget'⟩ := List.getElem?_eq_some.mp hnd
                rw [← hget']
                exact List.getElem_mem hlt'
              have h0 := hs nd hmem he
              rw [← hke.1] at h0
              exact absurd h0 hklen
          have hlive : node_is_live nd = true := by
            simp [node_is_live, hne, htb]
          obtain ⟨j, hj, hpos, hbefore⟩ := hc (get_index m K + t) nd hnd hlive
          have hidx : get_index m nd.key = get_index m K := by
            unfold get_index
            rw [hh K nd.key hke]
          rw [hidx] at hpos hbefore
          have hjt : j = t := by
            apply probe_offset_unique m.capacity (get_index m K) j t hj ht
            rw [hpos, Nat.mod_eq_of_lt hlt]
          subst hjt
          by_cases heq : t' = j
          · subst heq
            exact ⟨nd, hnd, hne⟩
          · have hlt' : t' < j := by omega
            obtain ⟨nd', hnd', hne'⟩ := hbefore t' hlt'
            rw [Nat.mod_eq_of_lt (by omega)] at hnd'
            exact ⟨nd', hnd', hne'⟩
        rw [hagree]
        exact hget

/-- C22: the lookup that ends at the first empty slot does not return the
same result as the full scan of `get`. The store of capacity 2 with key A in
slot 1 and key B in slot 0 is reachable by two calls of `put` with a hash
that sends both keys to index 1, and each live entry lies on the probe chain
of its key. The lookup of key B passes slot 1 and returns the value of B
from slot 0; the full scan of `get` passes slot 1 and then tests
`nodes[2].tombstone` (line 188), outside the array. -/
theorem lookup_until_empty_differs_from_get :
    create_map 2 (some (hash_const 1)) (some destroy_hook) = some (store_fresh 1) ∧
    (∃ m1, put (store_fresh 1) key_a val_1 false = .returns (true, m1) ∧
      put m1 key_b val_2 false = .returns (true, store_wrapped)) ∧
    Reachable store_wrapped ∧ chained store_wrapped ∧
    hash_respects_keys store_wrapped.hash_function ∧
    lookup_until_empty store_wrapped key_b = .returns val_2 ∧
    get store_wrapped key_b = .out_of_bounds ∧
    get store_wrapped key_b ≠ lookup_until_empty store_wrapped key_b :=
  ⟨rfl, ⟨_, rfl, rfl⟩,
    Reachable.put _ key_b val_2 false true store_wrapped
      (Reachable.put (store_fresh 1) key_a val_1 false true _
        (Reachable.create 2 (hash_const 1) destroy_hook (store_fresh 1) (by decide) rfl) rfl)
      rfl,
    reachable_chained
      (Reachable.put _ key_b val_2 false true store_wrapped
        (Reachable.put (store_fresh 1) key_a val_1 false true _
          (Reachable.create 2 (hash_const 1) destroy_hook (store_fresh 1) (by decide) rfl) rfl)
        rfl),
    fun _ _ _ => rfl, rfl, rfl, by decide⟩

/-- C24: the probe loops of `get` and `delete` read the slot array at an
index that is not below the capacity. The store of capacity 2 with key A in
slot 1 is reachable and not invalidated, key B is not empty and its probe
starts at index 1: the first iteration reads slot 1, the second tests
`nodes[2].tombstone` (lines 188 and 238), outside the array, so the
out-of-range branch is taken in `get` and in `delete`. A key that is found
before the counter reaches the capacity (key A) is looked up within
bounds. -/
theorem probe_reads_past_capacity :
    ∃ m0 m1, create_map 2 (some (hash_const 1)) (some destroy_hook) = some m0 ∧
      put m0 key_a val_1 false = .returns (true, m1) ∧
      Reachable m1 ∧ m1.invalid = false ∧ key_nonempty key_b ∧
      m1.nodes.length = m1.capacity ∧ get_index m1 key_b = 1 ∧
      probe_loop m1 key_b 1 1 = some none ∧
      m1.nodes[2]? = none ∧
      probe_loop m1 key_b 2 1 = none ∧
      probe_loop m1 key_b (get_index m1 key_b) m1.capacity = none ∧
      get m1 key_b = .out_of_bounds ∧
      delete m1 key_b = .out_of_bounds ∧
      get m1 key_a = .returns val_1 :=
  ⟨_, _, rfl, rfl,
    Reachable.put _ key_a val_1 false true _
      (Reachable.create 2 (hash_const 1) destroy_hook _ (by decide) rfl) rfl,
    rfl, by decide, rfl, rfl, rfl, rfl, rfl, rfl, rfl, rfl, rfl⟩

/-- After two calls of `delete` that read past the slot array and find a zero
byte there, the store of capacity 2 has size 0 with key A live in slot 1 and
a tombstone in slot 0. The `put` of key C reuses the tombstone: both slots
are live and size is 1. The `put` of key B that follows, with either force
value, finds no slot in 2 steps and returns false although size < capacity. -/
theorem put_fails_after_repeated_delete :
    ∃ m0 m1 m2 m3 m4 m5 m6 n3 n4,
      create_map 2 (some (hash_const 1)) (some destroy_hook) = some m0 ∧
      put m0 key_a val_1 false = .returns (true, m1) ∧
      put m1 key_b val_2 false = .returns (true, m2) ∧
      delete_unchecked (fun _ => false) m2 key_b = .returns (n3, m3) ∧
      delete_unchecked (fun _ => false) m3 key_b = .returns (n4, m4) ∧
      put m4 key_c val_1 false = .returns (true, m5) ∧
      m5.size = 1 ∧ m5.capacity = 2 ∧ live_count m5 = 2 ∧ m5.invalid = false ∧
      put m5 key_b val_2 false = .returns (false, m6) ∧
      put m5 key_b val_2 true = .returns (false, m6) :=
  ⟨_, _, _, _, _, _, _, _, _, rfl, rfl, rfl, rfl, rfl, rfl, rfl, rfl, rfl, rfl, rfl, rfl⟩

end Hashmap

namespace Queue

/-! Facts about the linked nodes of the queue. -/

theorem chain_addr_lt (heap : List (Option queue_node_t)) :
    ∀ (cells : List (Nat × Nat)) (p : Option Nat), chain heap p cells →
      ∀ a ∈ cells.map Prod.fst, a < heap.length := by
  intro cells
  induction cells with
  | nil => intro p _ a ha; simp at ha
  | cons c cs ih =>
    obtain ⟨a0, x0⟩ := c
    intro p hch a ha
    obtain ⟨_, nxt, hnode, htail⟩ := hch
    simp only [List.map_cons, List.mem_cons] at ha
    rcases ha with h0 | hin
    · subst h0
      exact (List.getElem?_eq_some.mp hnode).1
    · exact ih nxt htail a hin

theorem chain_set_other (heap : List (Option queue_node_t)) (b : Nat)
    (v : Option queue_node_t) :
    ∀ (cells : List (Nat × Nat)) (p : Option Nat), chain heap p cells →
      b ∉ cells.map Prod.fst → chain (heap.set b v) p cells := by
  intro cells
  induction cells with
  | nil => intro p h _; exact h
  | cons c cs ih =>
    obtain ⟨a0, x0⟩ := c
    intro p hch hb
    obtain ⟨hp, nxt, hnode, htail⟩ := hch
    simp only [List.map_cons, List.mem_cons, not_or] at hb
    refine ⟨hp, nxt, ?_, ih nxt htail hb.2⟩
    rw [List.getElem?_set_ne hb.1]
    exact hnode

theorem chain_enqueue (heap : List (Option queue_node_t)) (x : Nat) :
    ∀ (cells : List (Nat × Nat)) (p : Option Nat) (r : Nat), chain heap p cells →
      (cells.map Prod.fst).getLast? = some r → (cells.map Prod.fst).Nodup →
      ∃ rear_node : queue_node_t,
        (heap ++ [some (queue_node_t.mk (some x) none)])[r]? = some (some rear_node) ∧
        chain ((heap ++ [some (queue_node_t.mk (some x) none)]).set r
            (some { rear_node with next := some heap.length }))
          p (cells ++ [(heap.length, x)]) := by
  intro cells
  induction cells with
  | nil => intro p r _ hlast _; simp at hlast
  | cons c cs ih =>
    obtain ⟨a0, x0⟩ := c
    intro p r hch hlast hnd
    obtain ⟨hp, nxt, hnode, htail⟩ := hch
    have ha0 : a0 < heap.length := (List.getElem?_eq_some.mp hnode).1
    cases cs with
    | nil =>
      simp only [List.map_cons, List.map_nil, List.getLast?_singleton, Option.some.injEq]
        at hlast
      subst hlast
      have hnxt : nxt = none := htail
      subst hnxt
      refine ⟨{ item := some x0, next := none }, ?_, hp, some heap.length, ?_, ?_⟩
      · rw [List.getElem?_append_left ha0]
        exact hnode
      · rw [List.getElem?_set, if_pos rfl, if_pos (by simp; omega)]
      · refine ⟨rfl, none, ?_, rfl⟩
        rw [List.getElem?_set_ne (by omega), List.getElem?_concat_length]
    | cons c2 cs2 =>
      have hlast' : (List.map Prod.fst (c2 :: cs2)).getLast? = some r := by
        simpa using hlast
      have hnd' : (List.map Prod.fst (c2 :: cs2)).Nodup := (List.nodup_cons.mp hnd).2
      have hnotin : a0 ∉ List.map Prod.fst (c2 :: cs2) := (List.nodup_cons.mp hnd).1
      have hr_mem : r ∈ List.map Prod.fst (c2 :: cs2) := List.mem_of_getLast?_eq_some hlast'
      have hne : r ≠ a0 := fun e => hnotin (e ▸ hr_mem)
      obtain ⟨rear_node, hrear, hchain⟩ := ih nxt r htail hlast' hnd'
      refine ⟨rear_node, hrear, hp, nxt, ?_, hchain⟩
      rw [List.getElem?_set_ne hne, List.getElem?_append_left ha0]
      exact hnode

theorem represents_create : represents create_queue [] :=
  ⟨rfl, rfl, rfl, [], rfl, rfl, rfl, List.nodup_nil⟩

theorem enqueue_represents {q : queue_t} {xs : List Nat} (x : Nat) (h : represents q xs) :
    ∃ q', enqueue q (some x) = .returns (true, q') ∧ represents q' (xs ++ [x]) := by
  obtain ⟨hlock, hinv, hitems, cells, hxs, hchain, hrear, hnd⟩ := h
  have hlt := chain_addr_lt q.heap cells q.front hchain
  have hfresh : q.heap.length ∉ cells.map Prod.fst := fun hin =>
    absurd (hlt _ hin) (Nat.lt_irrefl _)
  have hnd' : ((cells ++ [(q.heap.length, x)]).map Prod.fst).Nodup := by
    rw [List.map_append, List.map_cons, List.map_nil]
    refine List.Nodup.append hnd (List.nodup_singleton _) ?_
    intro a ha hb
    rw [List.mem_singleton] at hb
    subst hb
    exact hfresh ha
  have hsnd : (cells ++ [(q.heap.length, x)]).map Prod.snd = xs ++ [x] := by
    rw [List.map_append, hxs]; rfl
  have hlastnew : ((cells ++ [(q.heap.length, x)]).map Prod.fst).getLast?
      = some q.heap.length := by
    rw [List.map_append, List.map_cons, List.map_nil, List.getLast?_concat]
  cases cells with
  | nil =>
    have hfront : q.front = none := hchain
    refine ⟨{ q with
      front := some q.heap.length, rear := some q.heap.length
      heap := q.heap ++ [some (queue_node_t.mk (some x) none)], items := q.items + 1 }, ?_, ?_⟩
    · unfold enqueue
      simp only [Option.isNone_some, Bool.false_eq_true, if_false, hlock, hfront,
        Option.isNone_none, if_true]
    · refine ⟨hlock, hinv, ?_, [(q.heap.length, x)], hsnd, ?_, hlastnew.symm, hnd'⟩
      · show q.items + 1 = (xs ++ [x]).length
        rw [hitems]; simp
      · refine ⟨rfl, none, ?_, rfl⟩
        show (q.heap ++ [some (queue_node_t.mk (some x) none)])[q.heap.length]? = _
        rw [List.getElem?_concat_length]
  | cons c cs =>
    obtain ⟨a0, x0⟩ := c
    have hfront : q.front = some a0 := hchain.1
    obtain ⟨r, hr⟩ : ∃ r, q.rear = some r := by
      cases hq : q.rear with
      | none =>
        rw [hq] at hrear
        have := List.getLast?_eq_none_iff.mp hrear.symm
        simp at this
      | some r => exact ⟨r, rfl⟩
    have hlast : (List.map Prod.fst ((a0, x0) :: cs)).getLast? = some r := by
      rw [← hrear, hr]
    obtain ⟨rear_node, hrn, hch'⟩ := chain_enqueue q.heap x _ q.front r hchain hlast hnd
    refine ⟨{ q with
      rear := some q.heap.length
      heap := (q.heap ++ [some (queue_node_t.mk (some x) none)]).set r
        (some { rear_node with next := some q.heap.length })
      items := q.items + 1 }, ?_, ?_⟩
    · unfold enqueue
      simp only [Option.isNone_some, Bool.false_eq_true, if_false, hlock, hfront, hr, hrn]
    · refine ⟨hlock, hinv, ?_, (a0, x0) :: cs ++ [(q.heap.length, x)], hsnd, hch', hlastnew.symm,
        hnd'⟩
      show q.items + 1 = (xs ++ [x]).length
      rw [hitems]; simp

theorem dequeue_represents {q : queue_t} {x : Nat} {xs : List Nat}
    (h : represents q (x :: xs)) :
    ∃ q', dequeue q = .returns (some x, q') ∧ represents q' xs := by
  obtain ⟨hlock, hinv, hitems, cells, hxs, hchain, hrear, hnd⟩ := h
  cases cells with
  | nil => simp at hxs
  | cons c cs =>
    obtain ⟨a0, x0⟩ := c
    simp only [List.map_cons, List.cons.injEq] at hxs
    obtain ⟨hx0, hcs⟩ := hxs
    subst hx0
    obtain ⟨hfront, nxt, hnode, htail⟩ := hchain
    have hne : q.items ≠ 0 := by rw [hitems]; simp
    have hnotin : a0 ∉ cs.map Prod.fst := (List.nodup_cons.mp hnd).1
    refine ⟨{ q with
      front := nxt
      rear := if nxt.isNone then none else q.rear
      items := q.items - 1
      heap := q.heap.set a0 none }, ?_, ?_⟩
    · unfold dequeue
      simp only [hinv, Bool.false_eq_true, if_false, hne, hlock, hfront, hnode]
    · refine ⟨hlock, hinv, ?_, cs, hcs, chain_set_other q.heap a0 none cs nxt htail hnotin,
        ?_, (List.nodup_cons.mp hnd).2⟩
      · show q.items - 1 = xs.length
        rw [hitems]; simp
      · show (if nxt.isNone then none else q.rear) = (cs.map Prod.fst).getLast?
        cases cs with
        | nil =>
          have : nxt = none := htail
          subst this
          rfl
        | cons c2 cs2 =>
          obtain ⟨a2, x2⟩ := c2
          have : nxt = some a2 := htail.1
          subst this
          simp only [Option.isNone_some, Bool.false_eq_true, if_false]
          rw [hrear]
          simp

theorem dequeues_covered_enq {n x : Nat} {rest : List queue_op}
    (h : dequeues_covered n (queue_op.enq x :: rest)) : dequeues_covered (n + 1) rest := by
  intro k hk
  have := h (k + 1) (by simpa using hk)
  simp only [List.take_succ_cons, dequeue_count, enqueued, List.length_cons] at this
  omega

theorem dequeues_covered_deq {n : Nat} {rest : List queue_op}
    (h : dequeues_covered n (queue_op.deq :: rest)) : 0 < n ∧ dequeues_covered (n - 1) rest := by
  have h0 := h 0 (by simp)
  simp only [List.take_zero, dequeue_count, enqueued, List.length_nil] at h0
  refine ⟨by omega, ?_⟩
  intro k hk
  have := h (k + 1) (by simpa using hk)
  simp only [List.take_succ_cons, dequeue_count, enqueued] at this
  omega

theorem run_ops_fifo :
    ∀ (ops : List queue_op) (q : queue_t) (xs : List Nat), represents q xs →
      dequeues_covered xs.length ops →
      ∃ q', run_ops q ops
          = .returns (((xs ++ enqueued ops).take (dequeue_count ops)).map some, q') ∧
        represents q' ((xs ++ enqueued ops).drop (dequeue_count ops)) ∧
        list_model xs ops = some ((xs ++ enqueued ops).take (dequeue_count ops),
          (xs ++ enqueued ops).drop (dequeue_count ops)) := by
  intro ops
  induction ops with
  | nil =>
    intro q xs hrep _
    exact ⟨q, by simp [run_ops, enqueued, dequeue_count],
      by simpa [enqueued, dequeue_count] using hrep,
      by simp [list_model, enqueued, dequeue_count]⟩
  | cons op rest ih =>
    intro q xs hrep hcov
    cases op with
    | enq x =>
      obtain ⟨q1, henq, hrep1⟩ := enqueue_represents x hrep
      have hcov1 : dequeues_covered (xs ++ [x]).length rest := by
        have := dequeues_covered_enq hcov
        simpa using this
      obtain ⟨q2, hrun, hrep2, hmodel⟩ := ih q1 (xs ++ [x]) hrep1 hcov1
      have e : xs ++ enqueued (queue_op.enq x :: rest) = xs ++ [x] ++ enqueued rest := by
        simp [enqueued]
      refine ⟨q2, ?_, ?_, ?_⟩
      · simp only [run_ops, henq, dequeue_count, e]
        exact hrun
      · simp only [dequeue_count, e]
        exact hrep2
      · simp only [list_model, dequeue_count, e]
        exact hmodel
    | deq =>
      obtain ⟨hpos, hcov1⟩ := dequeues_covered_deq hcov
      cases xs with
      | nil => simp at hpos
      | cons y ys =>
        obtain ⟨q1, hdeq, hrep1⟩ := dequeue_represents hrep
        have hcov2 : dequeues_covered ys.length rest := by simpa using hcov1
        obtain ⟨q2, hrun, hrep2, hmodel⟩ := ih q1 ys hrep1 hcov2
        refine ⟨q2, ?_, ?_, ?_⟩
        · simp only [run_ops, hdeq, hrun, dequeue_count, enqueued, List.cons_append,
            List.take_succ_cons, List.map_cons]
        · simp only [dequeue_count, enqueued, List.cons_append, List.drop_succ_cons]
          exact hrep2
        · simp only [list_model, hmodel, dequeue_count, enqueued, List.cons_append,
            List.take_succ_cons, List.drop_succ_cons]

/-- C12: in the sequential model of the queue, for every sequence of calls
of `enqueue` with non-NULL items and of `dequeue` on a new queue in which
each `dequeue` is preceded by more calls of `enqueue` than of `dequeue`, every
call returns, the k-th `dequeue` returns the item of the k-th `enqueue`, and
the queue behaves as the list to which `enqueue` appends at the rear and
from which `dequeue` removes at the front: it ends holding the items not yet
dequeued, in order. -/
theorem dequeue_returns_in_enqueue_order (ops : List queue_op)
    (h : dequeues_covered 0 ops) :
    ∃ q', run_ops create_queue ops
        = .returns (((enqueued ops).take (dequeue_count ops)).map some, q') ∧
      represents q' ((enqueued ops).drop (dequeue_count ops)) ∧
      list_model [] ops = some ((enqueued ops).take (dequeue_count ops),
        (enqueued ops).drop (dequeue_count ops)) := by
  have := run_ops_fifo ops create_queue [] represents_create (by simpa using h)
  simpa using this

/-- C12 at the run enqueue 1, enqueue 2, dequeue, enqueue 3, dequeue, dequeue. -/
theorem dequeue_returns_in_enqueue_order_witness :
    ∃ q', run_ops create_queue
        [queue_op.enq 1, queue_op.enq 2, queue_op.deq, queue_op.enq 3, queue_op.deq,
          queue_op.deq]
        = .returns ([some 1, some 2, some 3], q') ∧
      represents q' [] ∧
      list_model [] [queue_op.enq 1, queue_op.enq 2, queue_op.deq, queue_op.enq 3,
        queue_op.deq, queue_op.deq] = some ([1, 2, 3], []) :=
  dequeue_returns_in_enqueue_order
    [queue_op.enq 1, queue_op.enq 2, queue_op.deq, queue_op.enq 3, queue_op.deq, queue_op.deq]
    (by
      intro k hk
      match k, hk with
      | 2, _ => decide
      | 4, _ => decide
      | 5, _ => decide)

/-- C13: `invalidate_queue` does not invoke the destroy hook on the items
still enqueued. On the queue that holds the single item pointer 7 in the node
at address 0, the first pass of the loop calls the hook on the node (line
51), not on the item, and frees the node; the link is then read from the
freed node (line 53), so the call does not return true. -/
theorem invalidate_queue_destroys_node :
    enqueue create_queue (some 7) = .returns (true, queue_one_item) ∧
    (invalidate_visit queue_one_item 0).destroyed = [pointer.node 0] ∧
    (invalidate_visit queue_one_item 0).destroyed ≠ [pointer.item 7] ∧
    (invalidate_visit queue_one_item 0).heap = [none] ∧
    invalidate_queue queue_one_item (some destroy_item) = .bad_pointer ∧
    (∀ q' : queue_t, invalidate_queue queue_one_item (some destroy_item) ≠ .returns (true, q')) :=
  ⟨rfl, rfl, by decide, rfl, rfl, fun _ => by
    show Result.bad_pointer ≠ _
    exact fun h => Result.noConfusion h⟩

end Queue

namespace Server

open Hashmap

/-! The claims about the worker, in order. -/

/-- C14: a PUT request with sizes in bounds whose key and value are read
without error is not always answered OK. The worker first serves a PUT with
key_size 0 and answers BAD_REQUEST; `response_header` is not initialised at
the next iteration, so for the PUT of key B that follows the test of line
220 skips the call of `put`: the answer is BAD_REQUEST again and the store
does not hold B. With locals that do not hold BAD_REQUEST the same request
is answered OK and stored. -/
theorem put_after_bad_request_skipped :
    (∃ r1 r2,
      worker_iteration cream_h zero_filled store_one_key (locals_with 0 0)
        [read_event.data (header_bytes 1 0 1)] = .returns r1 ∧
      r1.response_header.response_code = cream_h.BAD_REQUEST ∧
      worker_iteration cream_h zero_filled r1.server_hashmap r1.locals
        [read_event.data (header_bytes 1 1 1 ++ [66, 2])] = .returns r2 ∧
      r2.response_header.response_code = cream_h.BAD_REQUEST ∧
      r2.response_header.response_code ≠ cream_h.OK ∧
      r2.server_hashmap.nodes = store_one_key.nodes ∧
      r2.client_fd = []) ∧
    (∃ r,
      worker_iteration cream_h zero_filled store_one_key (locals_with 0 0)
        [read_event.data (header_bytes 1 1 1 ++ [66, 2])] = .returns r ∧
      r.response_header = { response_code := cream_h.OK, value_size := 0 } ∧
      r.server_hashmap.nodes = store_two_keys.nodes) :=
  ⟨⟨_, _, rfl, rfl, rfl, rfl, by decide, rfl, rfl⟩, ⟨_, rfl, rfl, rfl⟩⟩

/-- C15: a GET request for a key that the store holds is not always
answered OK with the value. After a connection that was answered
BAD_REQUEST, the GET of key A, which is live with a one-byte value, skips
the call of `get` at the test of line 243: the answer is BAD_REQUEST with no
payload. With locals that hold the answer OK the same request is answered
OK with value_size 1 and the value. -/
theorem get_after_bad_request_skipped :
    (∃ r1 r2,
      worker_iteration cream_h zero_filled store_one_key (locals_with 0 0)
        [read_event.data (header_bytes 1 0 1)] = .returns r1 ∧
      r1.response_header.response_code = cream_h.BAD_REQUEST ∧
      get r1.server_hashmap key_a = .returns val_1 ∧
      worker_iteration cream_h zero_filled r1.server_hashmap r1.locals
        [read_event.data (header_bytes 2 1 0), read_event.data [65]] = .returns r2 ∧
      r2.response_header.response_code = cream_h.BAD_REQUEST ∧
      r2.response_header.response_code ≠ cream_h.OK ∧
      r2.payload = none) ∧
    (∃ r,
      worker_iteration cream_h zero_filled store_one_key (locals_with 200 0)
        [read_event.data (header_bytes 2 1 0), read_event.data [65]] = .returns r ∧
      r.response_header = { response_code := cream_h.OK, value_size := 1 } ∧
      r.payload = some [1]) :=
  ⟨⟨_, _, rfl, rfl, rfl, rfl, rfl, by decide, rfl⟩, ⟨_, rfl, rfl, rfl⟩⟩

/-- C16: an EVICT request for a key that the store holds is not always
answered OK. After a connection that was answered BAD_REQUEST, the EVICT of
key A, which is live, skips the call of `delete` at the test of line 271: the
answer is BAD_REQUEST and the entry stays, so that a GET of A served with
clean locals still finds it. -/
theorem evict_after_bad_request_skipped :
    ∃ r1 r2 r3,
      worker_iteration cream_h zero_filled store_one_key (locals_with 0 0)
        [read_event.data (header_bytes 1 0 1)] = .returns r1 ∧
      r1.response_header.response_code = cream_h.BAD_REQUEST ∧
      get r1.server_hashmap key_a = .returns val_1 ∧
      worker_iteration cream_h zero_filled r1.server_hashmap r1.locals
        [read_event.data (header_bytes 4 1 0), read_event.data [65]] = .returns r2 ∧
      r2.response_header.response_code = cream_h.BAD_REQUEST ∧
      r2.response_header.response_code ≠ cream_h.OK ∧
      r2.server_hashmap.nodes = store_one_key.nodes ∧
      worker_iteration cream_h zero_filled r2.server_hashmap (locals_with 200 0)
        [read_event.data (header_bytes 2 1 0), read_event.data [65]] = .returns r3 ∧
      r3.response_header.response_code = cream_h.OK :=
  ⟨_, _, _, rfl, rfl, rfl, rfl, rfl, by decide, rfl, rfl, rfl⟩

/-- C17: for every PUT, GET or EVICT request whose key_size lies outside
[MIN_KEY_SIZE, MAX_KEY_SIZE], and every PUT request whose value_size lies
outside [MIN_VALUE_SIZE, MAX_VALUE_SIZE], whatever the locals held before,
the worker responds with response_code = BAD_REQUEST, takes nothing from
the descriptor after the read of the request header, writes no payload, and
leaves the store as it is. -/
theorem invalid_sizes_rejected (c : cream_constants) (malloc_contents : Nat → List Nat)
    (server_hashmap : hashmap_t) (locals : worker_locals) (client_fd : List read_event)
    (h :
      (((received_header locals client_fd).request_code = c.PUT ∨
          (received_header locals client_fd).request_code = c.GET ∨
          (received_header locals client_fd).request_code = c.EVICT) ∧
        ¬ (c.MIN_KEY_SIZE ≤ (received_header locals client_fd).key_size ∧
          (received_header locals client_fd).key_size ≤ c.MAX_KEY_SIZE)) ∨
      ((received_header locals client_fd).request_code = c.PUT ∧
        ¬ (c.MIN_VALUE_SIZE ≤ (received_header locals client_fd).value_size ∧
          (received_header locals client_fd).value_size ≤ c.MAX_VALUE_SIZE))) :
    ∃ r, worker_iteration c malloc_contents server_hashmap locals client_fd = .returns r ∧
      r.response_header.response_code = c.BAD_REQUEST ∧
      r.client_fd = (readNBytes client_fd REQUEST_HEADER_SIZE).rest ∧
      r.payload = none ∧
      r.server_hashmap = server_hashmap := by
  simp only [received_header] at h
  unfold worker_iteration
  simp only
  generalize readNBytes client_fd REQUEST_HEADER_SIZE = rd at h ⊢
  generalize decode_request_header (rd.bytes ++ locals.request_header.drop rd.bytes.length)
    = hdr at h ⊢
  by_cases hcount : rd.count < 0
  · rw [if_pos hcount]
    exact ⟨_, rfl, rfl, rfl, rfl, rfl⟩
  · rw [if_neg hcount]
    rcases h with ⟨hcode, hkey⟩ | ⟨hcode, hval⟩
    · have hk : ∀ rh : response_header_t,
          isKeyValid c hdr rh = (false, { rh with response_code := c.BAD_REQUEST }) := by
        intro rh
        unfold isKeyValid
        rw [if_neg]
        simpa using hkey
      by_cases hput : hdr.request_code = c.PUT
      · rw [if_pos hput]
        simp only [put_branch, hk, Bool.false_eq_true, if_false]
        exact ⟨_, rfl, rfl, rfl, rfl, rfl⟩
      · rw [if_neg hput]
        by_cases hget : hdr.request_code = c.GET
        · rw [if_pos hget]
          simp only [get_branch, hk, Bool.false_eq_true, if_false]
          exact ⟨_, rfl, rfl, rfl, rfl, rfl⟩
        · rw [if_neg hget]
          have hev : hdr.request_code = c.EVICT := by
            rcases hcode with h1 | h1 | h1
            · exact absurd h1 hput
            · exact absurd h1 hget
            · exact h1
          rw [if_pos hev]
          simp only [evict_branch, hk, Bool.false_eq_true, if_false]
          exact ⟨_, rfl, rfl, rfl, rfl, rfl⟩
    · have hv : ∀ rh : response_header_t,
          isValValid c hdr rh = (false, { rh with response_code := c.BAD_REQUEST }) := by
        intro rh
        unfold isValValid
        rw [if_neg]
        simpa using hval
      rw [if_pos hcode]
      simp only [put_branch, hv, Bool.false_eq_true, if_false]
      by_cases hkv : (decide (hdr.key_size ≥ c.MIN_KEY_SIZE)
          && decide (hdr.key_size ≤ c.MAX_KEY_SIZE)) = true
      · simp only [isKeyValid, hkv, if_true]
        exact ⟨_, rfl, rfl, rfl, rfl, rfl⟩
      · simp only [isKeyValid, hkv, Bool.false_eq_true, if_false]
        exact ⟨_, rfl, rfl, rfl, rfl, rfl⟩

/-- C17 at a PUT request with key_size 0 followed by a byte of payload. -/
theorem invalid_sizes_rejected_witness :
    ∃ r, worker_iteration cream_h zero_filled store_one_key (locals_with 200 3)
        [read_event.data (header_bytes 1 0 1), read_event.data [65]] = .returns r ∧
      r.response_header.response_code = cream_h.BAD_REQUEST ∧
      r.client_fd = (readNBytes [read_event.data (header_bytes 1 0 1), read_event.data [65]]
        REQUEST_HEADER_SIZE).rest ∧
      r.payload = none ∧
      r.server_hashmap = store_one_key :=
  invalid_sizes_rejected cream_h zero_filled store_one_key (locals_with 200 3)
    [read_event.data (header_bytes 1 0 1), read_event.data [65]] (by decide)

/-- C18: a short read of the request header is not answered BAD_REQUEST.
The client sends the four bytes of the request code CLEAR and closes;
`readNBytes` returns 4, which is not negative, so the test of line 193
passes, the worker dispatches on the code, calls `clear_map`, which empties
the store, and answers OK. A read that fails with an error other than EINTR
is answered BAD_REQUEST with value_size 0 and the store is kept. -/
theorem short_header_is_dispatched :
    (readNBytes [read_event.data [8, 0, 0, 0]] REQUEST_HEADER_SIZE).count = 4 ∧
    (∃ r,
      worker_iteration cream_h zero_filled store_one_key (locals_with 0 0)
        [read_event.data [8, 0, 0, 0]] = .returns r ∧
      r.response_header = { response_code := cream_h.OK, value_size := 0 } ∧
      r.response_header.response_code ≠ cream_h.BAD_REQUEST ∧
      r.server_hashmap.size = 0 ∧
      get r.server_hashmap key_a = .returns (MAP_VAL none 0) ∧
      get store_one_key key_a = .returns val_1) ∧
    (∃ r,
      worker_iteration cream_h zero_filled store_one_key (locals_with 0 0)
        [read_event.data [8, 0, 0, 0], read_event.error 5] = .returns r ∧
      r.response_header = { response_code := cream_h.BAD_REQUEST, value_size := 0 } ∧
      r.server_hashmap.nodes = store_one_key.nodes) :=
  ⟨by decide, ⟨_, rfl, rfl, by decide, rfl, rfl, rfl⟩, ⟨_, rfl, rfl, rfl⟩⟩

/-- C19: the value_size of the response header does not always equal the
number of payload bytes written. The worker first serves a GET of key A and
answers OK with value_size 1 and one byte of payload; for the PUT with
key_size 0 that follows, `isKeyValid` sets the response code only, so the
header carries BAD_REQUEST with the value_size 1 left by the previous
answer, and no payload is written. -/
theorem stale_value_size_without_payload :
    ∃ r1 r2,
      worker_iteration cream_h zero_filled store_one_key (locals_with 0 0)
        [read_event.data (header_bytes 2 1 0), read_event.data [65]] = .returns r1 ∧
      r1.response_header = { response_code := cream_h.OK, value_size := 1 } ∧
      r1.payload = some [1] ∧
      worker_iteration cream_h zero_filled r1.server_hashmap r1.locals
        [read_event.data (header_bytes 1 0 1)] = .returns r2 ∧
      r2.response_header = { response_code := cream_h.BAD_REQUEST, value_size := 1 } ∧
      r2.payload = none ∧
      r2.response_header.value_size ≠ 0 :=
  ⟨_, _, rfl, rfl, rfl, rfl, rfl, rfl, by decide⟩

/-! Facts about `readNBytes`. -/

theorem readNBytes_loop_shift :
    ∀ (fd : List read_event) (left n : Nat) (buffer : List Nat), left ≤ n →
      readNBytes_loop n fd left buffer =
        { count :=
            if (readNBytes_loop left fd left []).count < 0 then -1
            else (readNBytes_loop left fd left []).count + ((n - left : Nat) : Int)
          bytes := buffer ++ (readNBytes_loop left fd left []).bytes
          rest := (readNBytes_loop left fd left []).rest } := by
  intro fd
  induction fd with
  | nil =>
    intro left n buffer hle
    cases left with
    | zero => simp [readNBytes_loop]
    | succ m =>
      simp only [readNBytes_loop, List.append_nil, sub_self, lt_self_iff_false, if_false,
        zero_add, read_outcome.mk.injEq, and_true]
      omega
  | cons ev fd ih =>
    intro left n buffer hle
    cases left with
    | zero => simp [readNBytes_loop]
    | succ m =>
      cases ev with
      | error errno =>
        by_cases he : errno = EINTR
        · simp only [readNBytes_loop, he, if_true, Nat.sub_zero]
          exact ih (m + 1) n buffer hle
        · simp [readNBytes_loop, he]
      | data available =>
        by_cases h0 : available.length = 0
        · simp only [readNBytes_loop, h0, if_true, List.append_nil, sub_self,
            lt_self_iff_false, if_false, zero_add, read_outcome.mk.injEq, and_true]
          omega
        · by_cases hshort : available.length < m + 1
          · have hl : m + 1 - available.length ≤ n := by omega
            have hl' : m + 1 - available.length ≤ m + 1 := by omega
            simp only [readNBytes_loop, h0, hshort, if_true, if_false]
            rw [ih (m + 1 - available.length) n (buffer ++ available) hl,
              ih (m + 1 - available.length) (m + 1) ([] ++ available) hl']
            simp only [read_outcome.mk.injEq, List.nil_append, List.append_assoc, and_true]
            by_cases hc : (readNBytes_loop (m + 1 - available.length) fd
                (m + 1 - available.length) []).count < 0
            · simp [hc]
            · simp only [hc, if_false]
              have hnn : ¬ ((readNBytes_loop (m + 1 - available.length) fd
                  (m + 1 - available.length) []).count
                  + ((m + 1 - (m + 1 - available.length) : Nat) : Int) < 0) := by omega
              rw [if_neg hnn]
              omega
          · simp only [readNBytes_loop, h0, hshort, if_false, List.nil_append,
              read_outcome.mk.injEq, and_true]
            have : ¬ (((m + 1 : Nat) : Int) - 0 < 0) := by omega
            rw [if_neg this]
            omega

theorem readNBytes_eintr (fd : List read_event) (n : Nat) (hn : 0 < n) :
    readNBytes (read_event.error EINTR :: fd) n = readNBytes fd n := by
  cases n with
  | zero => exact absurd hn (Nat.lt_irrefl 0)
  | succ m => simp [readNBytes, readNBytes_loop]

theorem readNBytes_error (fd : List read_event) (n errno : Nat) (hn : 0 < n)
    (he : errno ≠ EINTR) :
    readNBytes (read_event.error errno :: fd) n = { count := -1, bytes := [], rest := fd } := by
  cases n with
  | zero => exact absurd hn (Nat.lt_irrefl 0)
  | succ m => simp [readNBytes, readNBytes_loop, he]

theorem readNBytes_short (fd : List read_event) (n : Nat) (available : List Nat)
    (hpos : 0 < available.length) (hshort : available.length < n) :
    readNBytes (read_event.data available :: fd) n =
      { count :=
          if (readNBytes fd (n - available.length)).count < 0 then -1
          else (readNBytes fd (n - available.length)).count + (available.length : Int)
        bytes := available ++ (readNBytes fd (n - available.length)).bytes
        rest := (readNBytes fd (n - available.length)).rest } := by
  cases n with
  | zero => exact absurd hshort (Nat.not_lt_zero _)
  | succ m =>
    have h0 : available.length ≠ 0 := by omega
    have hl : m + 1 - available.length ≤ m + 1 := by omega
    have hcast : ((m + 1 - (m + 1 - available.length) : Nat) : Int) = (available.length : Int) := by
      omega
    simp only [readNBytes, readNBytes_loop, h0, hshort, if_true, if_false]
    rw [readNBytes_loop_shift fd (m + 1 - available.length) (m + 1) ([] ++ available) hl, hcast]
    simp

theorem readNBytes_bound :
    ∀ (fd : List read_event) (n : Nat),
      ((readNBytes fd n).count = -1 ∧ (readNBytes fd n).bytes.length < n) ∨
      ((readNBytes fd n).count = ((readNBytes fd n).bytes.length : Int) ∧
        (readNBytes fd n).bytes.length ≤ n) := by
  intro fd
  induction fd with
  | nil =>
    intro n
    cases n with
    | zero => right; simp [readNBytes, readNBytes_loop]
    | succ m => right; simp [readNBytes, readNBytes_loop]
  | cons ev fd ih =>
    intro n
    cases n with
    | zero => right; simp [readNBytes, readNBytes_loop]
    | succ m =>
      cases ev with
      | error errno =>
        by_cases he : errno = EINTR
        · subst he
          rw [readNBytes_eintr fd (m + 1) (Nat.succ_pos m)]
          exact ih (m + 1)
        · rw [readNBytes_error fd (m + 1) errno (Nat.succ_pos m) he]
          left
          simp
      | data available =>
        by_cases h0 : available.length = 0
        · right
          simp [readNBytes, readNBytes_loop, h0]
        · by_cases hshort : available.length < m + 1
          · rw [readNBytes_short fd (m + 1) available (by omega) hshort]
            rcases ih (m + 1 - available.length) with ⟨hc, hlen⟩ | ⟨hc, hlen⟩
            · left
              simp only [hc, List.length_append]
              refine ⟨by simp, by omega⟩
            · right
              have hnn : ¬ ((readNBytes fd (m + 1 - available.length)).count < 0) := by
                rw [hc]; omega
              simp only [hnn, if_false, hc, List.length_append]
              refine ⟨by push_cast; omega, by omega⟩
          · right
            have hlen : (available.take (m + 1)).length = m + 1 := by
              rw [List.length_take]; omega
            simp only [readNBytes, readNBytes_loop, h0, hshort, if_false, List.nil_append, hlen]
            refine ⟨by push_cast; omega, le_refl _⟩

/-- Results of `read` that leave bytes missing are consumed one by one: the
loop goes on with what follows them, the count still missing and the bytes
stored so far. -/
theorem readNBytes_loop_run (n : Nat) (fd : List read_event) :
    ∀ (pre : List read_event), (∀ ev ∈ pre, is_retried ev = true) →
      ∀ (left : Nat) (buffer : List Nat), (delivered pre).length < left →
        readNBytes_loop n (pre ++ fd) left buffer =
          readNBytes_loop n fd (left - (delivered pre).length) (buffer ++ delivered pre) := by
  intro pre
  induction pre with
  | nil =>
    intro _ left buffer _
    simp [delivered]
  | cons ev pre ih =>
    intro hpre left buffer hlt
    have hpre' : ∀ ev' ∈ pre, is_retried ev' = true :=
      fun ev' h' => hpre ev' (List.mem_cons_of_mem _ h')
    have hev := hpre ev (List.mem_cons_self _ _)
    cases left with
    | zero => exact absurd hlt (Nat.not_lt_zero _)
    | succ l =>
      cases ev with
      | error errno =>
        have he : errno = EINTR := by simpa [is_retried] using hev
        simp only [delivered] at hlt ⊢
        simp only [List.cons_append, readNBytes_loop, he, if_true, Nat.sub_zero]
        exact ih hpre' (l + 1) buffer hlt
      | data available =>
        have hpos : 0 < available.length := by simpa [is_retried] using hev
        simp only [delivered, List.length_append] at hlt ⊢
        have h0 : available.length ≠ 0 := by omega
        have hshort : available.length < l + 1 := by omega
        simp only [List.cons_append, readNBytes_loop, h0, hshort, if_true, if_false]
        have hih := ih hpre' (l + 1 - available.length) (buffer ++ available) (by omega)
        rw [List.append_assoc, Nat.sub_sub] at hih
        exact hih

/-- C20: with the underlying `read` modelled by the sequence of its
results, `readNBytes(fd, buf, n)` never reports more bytes than were
transferred (it returns -1 with fewer than n bytes stored, or the number of
bytes stored, at most n), returns n once n bytes in total have been
transferred, calls `read` again after a failure with errno = EINTR and, for
the bytes still missing, after a short positive return, and returns -1 when
a `read` fails with any other errno. For every run of short positive returns
and EINTR failures that leaves bytes missing: when the next `read` hands
over the missing bytes the call returns n with the n bytes stored in order,
leaving what it did not ask for; when the next `read` fails with another
errno it returns -1; at the end of the stream it returns the number of bytes
stored so far. A request for 0 bytes returns 0 without a call of `read`. -/
theorem readNBytes_length_exact (fd : List read_event) (n : Nat) :
    (((readNBytes fd n).count = -1 ∧ (readNBytes fd n).bytes.length < n) ∨
      ((readNBytes fd n).count = ((readNBytes fd n).bytes.length : Int) ∧
        (readNBytes fd n).bytes.length ≤ n)) ∧
    ((readNBytes fd n).bytes.length = n → (readNBytes fd n).count = (n : Int)) ∧
    (0 < n → readNBytes (read_event.error EINTR :: fd) n = readNBytes fd n) ∧
    (∀ available : List Nat, 0 < available.length → available.length < n →
      readNBytes (read_event.data available :: fd) n =
        { count :=
            if (readNBytes fd (n - available.length)).count < 0 then -1
            else (readNBytes fd (n - available.length)).count + (available.length : Int)
          bytes := available ++ (readNBytes fd (n - available.length)).bytes
          rest := (readNBytes fd (n - available.length)).rest }) ∧
    (∀ errno : Nat, errno ≠ EINTR → 0 < n →
      (readNBytes (read_event.error errno :: fd) n).count = -1) ∧
    (∀ (pre : List read_event) (available : List Nat),
      (∀ ev ∈ pre, is_retried ev = true) → (delivered pre).length < n →
      n ≤ (delivered pre).length + available.length →
      readNBytes (pre ++ read_event.data available :: fd) n =
        { count := (n : Int)
          bytes := delivered pre ++ available.take (n - (delivered pre).length)
          rest :=
            if available.length = n - (delivered pre).length then fd
            else read_event.data (available.drop (n - (delivered pre).length)) :: fd }) ∧
    (∀ (pre : List read_event) (errno : Nat),
      (∀ ev ∈ pre, is_retried ev = true) → (delivered pre).length < n → errno ≠ EINTR →
      readNBytes (pre ++ read_event.error errno :: fd) n =
        { count := -1, bytes := delivered pre, rest := fd }) ∧
    (∀ (pre : List read_event),
      (∀ ev ∈ pre, is_retried ev = true) → (delivered pre).length < n →
      readNBytes (pre ++ read_event.data [] :: fd) n =
        { count := ((delivered pre).length : Int), bytes := delivered pre
          rest := read_event.data [] :: fd }) ∧
    (∀ (pre : List read_event),
      (∀ ev ∈ pre, is_retried ev = true) → (delivered pre).length < n →
      readNBytes pre n =
        { count := ((delivered pre).length : Int), bytes := delivered pre, rest := [] }) ∧
    (n = 0 → readNBytes fd n = { count := 0, bytes := [], rest := fd }) := by
  refine ⟨readNBytes_bound fd n, ?_, readNBytes_eintr fd n,
    fun available hpos hshort => readNBytes_short fd n available hpos hshort, ?_, ?_, ?_, ?_, ?_,
    ?_⟩
  · intro hfull
    rcases readNBytes_bound fd n with ⟨_, hlt⟩ | ⟨hc, _⟩
    · omega
    · rw [hc, hfull]
  · intro errno he hn
    rw [readNBytes_error fd n errno hn he]
  · intro pre available hpre hlt hfull
    unfold readNBytes
    rw [readNBytes_loop_run n _ pre hpre n [] hlt]
    obtain ⟨l, hl⟩ : ∃ l, n - (delivered pre).length = l + 1 :=
      ⟨n - (delivered pre).length - 1, by omega⟩
    rw [hl]
    have h0 : available.length ≠ 0 := by omega
    have hnot : ¬ available.length < l + 1 := by omega
    simp only [readNBytes_loop, h0, hnot, if_false, List.nil_append, sub_zero]
  · intro pre errno hpre hlt he
    unfold readNBytes
    rw [readNBytes_loop_run n _ pre hpre n [] hlt]
    obtain ⟨l, hl⟩ : ∃ l, n - (delivered pre).length = l + 1 :=
      ⟨n - (delivered pre).length - 1, by omega⟩
    rw [hl]
    simp only [readNBytes_loop, he, if_false, List.nil_append]
  · intro pre hpre hlt
    unfold readNBytes
    rw [readNBytes_loop_run n _ pre hpre n [] hlt]
    obtain ⟨l, hl⟩ : ∃ l, n - (delivered pre).length = l + 1 :=
      ⟨n - (delivered pre).length - 1, by omega⟩
    rw [hl]
    simp only [readNBytes_loop, List.length_nil, if_true, List.nil_append, read_outcome.mk.injEq,
      and_true]
    omega
  · intro pre hpre hlt
    have hrun := readNBytes_loop_run n [] pre hpre n [] hlt
    rw [List.append_nil] at hrun
    unfold readNBytes
    rw [hrun]
    obtain ⟨l, hl⟩ : ∃ l, n - (delivered pre).length = l + 1 :=
      ⟨n - (delivered pre).length - 1, by omega⟩
    rw [hl]
    simp only [readNBytes_loop, List.nil_append, read_outcome.mk.injEq, and_true]
    omega
  · intro hzero
    subst hzero
    cases fd <;> simp [readNBytes, readNBytes_loop]

/-- C20 at a read of 5 bytes served by a short return of 2 bytes, a failure
with EINTR, a return of 1 byte and a return that holds more than the 2 bytes
still missing: the call returns 5 with the bytes 1 to 5 stored and leaves the
byte 6 and what follows it. -/
theorem readNBytes_length_exact_witness :
    readNBytes ([read_event.data [1, 2], read_event.error EINTR, read_event.data [3]]
        ++ read_event.data [4, 5, 6] :: [read_event.data [7]]) 5
      = { count := 5, bytes := [1, 2, 3, 4, 5]
          rest := [read_event.data [6], read_event.data [7]] } :=
  (readNBytes_length_exact [read_event.data [7]] 5).2.2.2.2.2.1
    [read_event.data [1, 2], read_event.error EINTR, read_event.data [3]] [4, 5, 6]
    (by decide) (by decide) (by decide)

end Server
